import Mathlib

/-! go-dosfont: a shallow embedding of `mz.go` and `font.go`.

The seekable input (`io.ReadSeeker`) is an immutable list of bytes together
with an explicit cursor that is threaded through every read.  Go's unsigned
machine integers are natural numbers, reduced modulo `2^w` wherever the source
computes in a `w`-bit unsigned type.  Go's `(value, error)` results are
`Except Error value`; a slice index out of range (a run-time panic in Go) is
the outcome `Error.indexOutOfRange`.

The stream behaves like an in-memory reader or a regular file: a read returns
the bytes that are there, a seek to any offset succeeds, and the cursor is at
offset 0 when `ReadMZ` or `ReadFonts` is called.  Go's `int` is taken to be 64
bits wide, so the `int` arithmetic of `font.go` is exact.
-/

namespace Dosfont

/-- One octet of the input stream or of a pixel buffer. -/
abbrev Byte := Fin 256

/-! ## mz.go: types and constants -/

/-- `type fileFormat int` with the constants `other`, `pe`, `ne` (mz.go 13-19). -/
inductive fileFormat where
  | other
  | pe
  | ne
  deriving DecidableEq, Repr

/-- The integer code of a format (`iota` numbering, mz.go 15-19). -/
def fileFormat.code : fileFormat → Nat
  | .other => 0
  | .pe => 1
  | .ne => 2

/-- The error values the two source files can return.  `EOF` and
`ErrUnexpectedEOF` are those of Go's `io` package, `unsupportedFormat` is the
`fmt.Errorf` value of mz.go line 80 (it carries the format code),
`indexOutOfRange` is the run-time panic of an out-of-range slice index and
`outOfFuel` marks an exhausted iteration budget of the resource-table loop. -/
inductive Error where
  | ErrHeaderToShort
  | ErrNoMZFile
  | ErrInvalidOffset
  | ErrFontHeaderTooShort
  | EOF
  | ErrUnexpectedEOF
  | unsupportedFormat (format : fileFormat)
  | indexOutOfRange
  | outOfFuel
  deriving DecidableEq, Repr

/-- Resource table entry (mz.go 22-26); all three fields are `uint16`.  The
Go field `Type` is written `Type_`, `Type` being reserved in Lean. -/
structure Resource where
  Start : Nat
  Size : Nat
  Type_ : Nat
  deriving DecidableEq, Repr

/-- The MZ container (mz.go 29-49).  The reader field `r` is the stream that
every function below receives as an explicit argument. -/
structure MZ where
  Signature : Nat
  BytesInLastBlock : Nat
  BlocksInFile : Nat
  NumRelocs : Nat
  HeaderParagraphs : Nat
  MinExtraParagraphs : Nat
  MaxExtraParagraphs : Nat
  Ss : Nat
  Sp : Nat
  Checksum : Nat
  IP : Nat
  Cs : Nat
  RelocTableOffset : Nat
  OverlayNumber : Nat
  Unknown : List Byte
  COFFHeaderOffset : Nat
  format : fileFormat
  resources : List Resource
  deriving DecidableEq, Repr

/-- The zero value `var mz MZ` (mz.go 66). -/
def MZ.zero : MZ :=
  { Signature := 0, BytesInLastBlock := 0, BlocksInFile := 0, NumRelocs := 0,
    HeaderParagraphs := 0, MinExtraParagraphs := 0, MaxExtraParagraphs := 0,
    Ss := 0, Sp := 0, Checksum := 0, IP := 0, Cs := 0, RelocTableOffset := 0,
    OverlayNumber := 0, Unknown := [], COFFHeaderOffset := 0,
    format := .other, resources := [] }

/-- `const headerSize int64 = 64` (mz.go 51). -/
def headerSize : Nat := 64

/-- `const fileIdentifier = 0x5a4D` (mz.go 53). -/
def fileIdentifier : Nat := 0x5a4D

/-! ## The Go library primitives the sources call -/

/-- Little-endian value of a byte string (`binary.LittleEndian`). -/
def leValue : List Byte → Nat
  | [] => 0
  | b :: bs => b.val + 256 * leValue bs

/-- `io.ReadFull` on the stream at cursor `pos`: exactly `n` bytes and the
advanced cursor, `EOF` when no byte is left, `ErrUnexpectedEOF` when some but
fewer than `n` are left. -/
def readFull (data : List Byte) (pos n : Nat) : Except Error (List Byte × Nat) :=
  if n = 0 then .ok ([], pos)
  else if data.length ≤ pos then .error .EOF
  else if data.length < pos + n then .error .ErrUnexpectedEOF
  else .ok ((data.drop pos).take n, pos + n)

/-- `binary.Read(r, binary.LittleEndian, &v)` for an unsigned `v` of `n`
bytes. -/
def binaryRead (data : List Byte) (pos n : Nat) : Except Error (Nat × Nat) :=
  match readFull data pos n with
  | .error e => .error e
  | .ok (bs, pos) => .ok (leValue bs, pos)

/-- Result of `io.CopyN`: the buffer written, the count `written`, the error
and the cursor afterwards. -/
structure CopyResult where
  buf : List Byte
  written : Nat
  err : Option Error
  pos : Nat

/-- `io.CopyN(&buf, r, n)`: copies `n` bytes or until the stream ends.  As in
Go, `written = n` exactly when the error is nil; a source that stops early
yields `EOF`. -/
def CopyN (data : List Byte) (pos n : Nat) : CopyResult :=
  let buf := (data.drop pos).take n
  if buf.length = n then { buf := buf, written := n, err := none, pos := pos + n }
  else { buf := buf, written := buf.length, err := some .EOF, pos := pos + buf.length }

/-- `r.Read(p)` with `len(p) = n > 0` on an in-memory or regular-file stream:
`EOF` at the end of the stream, otherwise the `min n remaining` bytes that
are there; the destination keeps its zero bytes beyond them. -/
def Read (data : List Byte) (pos n : Nat) : Except Error (List Byte × Nat) :=
  if data.length ≤ pos then .error .EOF
  else
    let got := (data.drop pos).take n
    .ok (got ++ List.replicate (n - got.length) 0, pos + got.length)

/-! ## mz.go: struct decoding (`struc.Unpack`) -/

/-- One unsigned little-endian field of `n` bytes taken from the buffer at
offset `off`; returns the value and the offset of the next field. -/
def unpackUint (buf : List Byte) (off n : Nat) : Except Error (Nat × Nat) :=
  binaryRead buf off n

/-- A `[n]pad` field: `n` bytes are consumed, none is stored. -/
def unpackPad (buf : List Byte) (off n : Nat) : Except Error Nat :=
  match readFull buf off n with
  | .error e => .error e
  | .ok (_, off) => .ok off

/-- `struc.Unpack(&buf, mz)` (mz.go 102): the tagged fields of `MZ` in
declaration order; `format`, `resources` and `r` are tagged `skip`. -/
def MZ.Unpack (buf : List Byte) (mz : MZ) : Except Error MZ := do
  let (signature, o) ← unpackUint buf 0 2
  let (bytesInLastBlock, o) ← unpackUint buf o 2
  let (blocksInFile, o) ← unpackUint buf o 2
  let (numRelocs, o) ← unpackUint buf o 2
  let (headerParagraphs, o) ← unpackUint buf o 2
  let (minExtraParagraphs, o) ← unpackUint buf o 2
  let (maxExtraParagraphs, o) ← unpackUint buf o 2
  let (ss, o) ← unpackUint buf o 2
  let (sp, o) ← unpackUint buf o 2
  let (checksum, o) ← unpackUint buf o 2
  let (ip, o) ← unpackUint buf o 2
  let (cs, o) ← unpackUint buf o 2
  let (relocTableOffset, o) ← unpackUint buf o 2
  let (overlayNumber, o) ← unpackUint buf o 2
  let o ← unpackPad buf o 32
  let (coffHeaderOffset, _) ← unpackUint buf o 4
  pure { mz with
    Signature := signature, BytesInLastBlock := bytesInLastBlock,
    BlocksInFile := blocksInFile, NumRelocs := numRelocs,
    HeaderParagraphs := headerParagraphs, MinExtraParagraphs := minExtraParagraphs,
    MaxExtraParagraphs := maxExtraParagraphs, Ss := ss, Sp := sp,
    Checksum := checksum, IP := ip, Cs := cs, RelocTableOffset := relocTableOffset,
    OverlayNumber := overlayNumber, COFFHeaderOffset := coffHeaderOffset }

/-! ## mz.go: the container reader -/

/-- `func (mz *MZ) readHeader() error` (mz.go 91-112), started with the cursor
at 0.  Returns the updated container and the cursor. -/
def MZ.readHeader (data : List Byte) (mz : MZ) : Except Error (MZ × Nat) :=
  let c := CopyN data 0 headerSize
  match c.err with
  | some err => .error err
  | none =>
    if c.written ≠ headerSize then .error .ErrHeaderToShort
    else
      match MZ.Unpack c.buf mz with
      | .error err => .error err
      | .ok mz =>
        if mz.Signature ≠ fileIdentifier then .error .ErrNoMZFile
        else .ok (mz, c.pos)

/-- The bytes of the Go string literal `"NE"`. -/
def magicNE : List Byte := [0x4E, 0x45]

/-- The bytes of the Go string literal `"PE\x00\x00"`. -/
def magicPE : List Byte := [0x50, 0x45, 0x00, 0x00]

/-- `func (mz *MZ) identifyFileFormat() error` (mz.go 114-136). -/
def MZ.identifyFileFormat (data : List Byte) (mz : MZ) : Except Error (MZ × Nat) :=
  -- goto COFF header
  let pos := mz.COFFHeaderOffset
  -- read preamble
  match Read data pos 4 with
  | .error err => .error err
  | .ok (preamble, pos) =>
    -- find file format
    if magicNE = preamble.take 2 then .ok ({ mz with format := .ne }, pos)
    else if magicPE = preamble then .ok ({ mz with format := .pe }, pos)
    else .ok (mz, pos)

/-- The inner loop of `readNEResourceTable` (mz.go 192-225): `n` entries are
still to be read; `acc` is `mz.resources`. -/
def readEntries (data : List Byte) (rtableShift rtype : Nat) :
    Nat → Nat → List Resource → Except Error (Nat × List Resource)
  | 0, pos, acc => .ok (pos, acc)
  | n + 1, pos, acc =>
    -- read start and size
    match binaryRead data pos 2 with
    | .error err => .error err
    | .ok (start, pos) =>
      match binaryRead data pos 2 with
      | .error err => .error err
      | .ok (size, pos) =>
        -- shift values (uint16 shifts)
        let start := (start <<< rtableShift) % 65536
        let size := (size <<< rtableShift) % 65536
        if start < 0 ∨ size < 0 then .error .ErrInvalidOffset
        else
          let acc := acc ++ [{ Start := start, Size := size, Type_ := rtype }]
          -- flags, name/id, 4 bytes reserved
          let pos := pos + 8
          readEntries data rtableShift rtype n pos acc

/-- The outer `for` loop of `readNEResourceTable` (mz.go 166-226).  Every
iteration that does not stop consumes at least eight bytes of the stream, so
`fuel` bounds the number of iterations. -/
def readTypeBlocks (data : List Byte) (rtableShift : Nat) :
    Nat → Nat → List Resource → Except Error (List Resource)
  | 0, _, _ => .error .outOfFuel
  | fuel + 1, pos, acc =>
    -- Read Type
    match binaryRead data pos 2 with
    | .error err => .error err
    | .ok (rtype, pos) =>
      -- check for end of the resource table
      if rtype = 0 then .ok acc
      else
        -- Read count
        match binaryRead data pos 2 with
        | .error err => .error err
        | .ok (count, pos) =>
          -- SKIP 4 bytes reserved
          let pos := pos + 4
          match readEntries data rtableShift rtype count pos acc with
          | .error err => .error err
          | .ok (pos, acc) => readTypeBlocks data rtableShift fuel pos acc

/-- `func (mz *MZ) readNEResourceTable() error` (mz.go 138-229). -/
def MZ.readNEResourceTable (data : List Byte) (mz : MZ) : Except Error MZ :=
  -- goto COFF header (uint32 addition)
  let pos := (mz.COFFHeaderOffset + 0x24) % 4294967296
  -- find rtable
  match binaryRead data pos 2 with
  | .error err => .error err
  | .ok (rtableStart, _) =>
    let rtable := (mz.COFFHeaderOffset + rtableStart) % 4294967296
    -- go to table start, read shift value
    match binaryRead data rtable 2 with
    | .error err => .error err
    | .ok (rtableShift, pos) =>
      match readTypeBlocks data rtableShift (data.length + 1) pos mz.resources with
      | .error err => .error err
      | .ok resources => .ok { mz with resources := resources }

/-- `func ReadMZ(r io.ReadSeeker) (*MZ, error)` (mz.go 65-89). -/
def ReadMZ (data : List Byte) : Except Error MZ :=
  match MZ.readHeader data MZ.zero with
  | .error err => .error err
  | .ok (mz, _) =>
    match MZ.identifyFileFormat data mz with
    | .error err => .error err
    | .ok (mz, _) =>
      if mz.format ≠ .ne then .error (.unsupportedFormat mz.format)
      else
        match MZ.readNEResourceTable data mz with
        | .error err => .error err
        | .ok mz => .ok mz

/-- The loop of `MZ.Resources` (mz.go 235-239): `filtered` grows by `append`. -/
def resourcesLoop (filterType : Nat) : List Resource → List Resource → List Resource
  | [], filtered => filtered
  | resource :: rest, filtered =>
    if resource.Type_ = filterType then resourcesLoop filterType rest (filtered ++ [resource])
    else resourcesLoop filterType rest filtered

/-- `func (mz *MZ) Resources(filterType uint16) []Resource` (mz.go 232-242). -/
def MZ.Resources (mz : MZ) (filterType : Nat) : List Resource :=
  resourcesLoop filterType mz.resources []

/-! ## font.go: types and constants -/

/-- `const fontHeader = 0x76` (font.go 20). -/
def fontHeader : Nat := 0x76

/-- `const fontType = 0x8008` (font.go 23). -/
def fontType : Nat := 0x8008

/-- `image.Point`. -/
structure Point where
  X : Nat
  Y : Nat
  deriving DecidableEq, Repr

/-- `image.Rectangle`. -/
structure Rectangle where
  Min : Point
  Max : Point
  deriving DecidableEq, Repr

/-- `image.Alpha`: the glyph mask. -/
structure Alpha where
  Pix : List Byte
  Stride : Nat
  Rect : Rectangle
  deriving DecidableEq, Repr

/-- `basicfont.Range`. -/
structure Range where
  Low : Nat
  High : Nat
  Offset : Nat
  deriving DecidableEq, Repr

/-- `basicfont.Face`. -/
structure Face where
  Advance : Nat
  Width : Nat
  Height : Nat
  Ascent : Nat
  Descent : Nat
  Left : Nat
  Mask : Alpha
  Ranges : List Range
  deriving DecidableEq, Repr

/-- The zero value of `basicfont.Face` (nil mask, nil ranges). -/
def Face.zero : Face :=
  { Advance := 0, Width := 0, Height := 0, Ascent := 0, Descent := 0, Left := 0,
    Mask := { Pix := [], Stride := 0, Rect := { Min := ⟨0, 0⟩, Max := ⟨0, 0⟩ } },
    Ranges := [] }

/-- The `Font` struct (font.go 26-59).  The Go field `Type` is written
`Type_`.  Strings are byte strings. -/
structure Font where
  Version : Nat
  Size : Nat
  Copyright : List Byte
  Type_ : Nat
  Points : Nat
  VertRes : Nat
  HorizRes : Nat
  Ascent : Nat
  InternalLeading : Nat
  ExternalLeading : Nat
  Italic : Bool
  Underline : Bool
  StrikeOut : Bool
  Weight : Nat
  CharSet : Nat
  PixWidth : Nat
  PixHeight : Nat
  PitchAndFamily : Nat
  AvgWidth : Nat
  MaxWidth : Nat
  FirstChar : Nat
  LastChar : Nat
  DefaultChar : Nat
  BreakChar : Nat
  WidthBytes : Nat
  Device : Nat
  FaceData : Nat
  BitsPointer : Nat
  BitsOffset : Nat
  Reserved : Nat
  Name : List Byte
  Face : Face
  deriving DecidableEq, Repr

/-! ## font.go: struct decoding and string helpers -/

/-- A `[n]byte` string field: the `n` raw bytes. -/
def unpackBytes (buf : List Byte) (off n : Nat) : Except Error (List Byte × Nat) :=
  readFull buf off n

/-- A `bool` field: one byte, true when it is not zero. -/
def unpackBool (buf : List Byte) (off : Nat) : Except Error (Bool × Nat) :=
  match binaryRead buf off 1 with
  | .error e => .error e
  | .ok (v, off) => .ok (decide (v ≠ 0), off)

/-- `struc.Unpack(&buf, &fonts[i])` (font.go 102): the tagged fields of `Font`
in declaration order; `Name` and `Face` are tagged `skip` and keep their zero
values. -/
def Font.Unpack (buf : List Byte) : Except Error Font := do
  let (version, o) ← unpackUint buf 0 2
  let (size, o) ← unpackUint buf o 4
  let (copyright, o) ← unpackBytes buf o 60
  let (type, o) ← unpackUint buf o 2
  let (points, o) ← unpackUint buf o 2
  let (vertRes, o) ← unpackUint buf o 2
  let (horizRes, o) ← unpackUint buf o 2
  let (ascent, o) ← unpackUint buf o 2
  let (internalLeading, o) ← unpackUint buf o 2
  let (externalLeading, o) ← unpackUint buf o 2
  let (italic, o) ← unpackBool buf o
  let (underline, o) ← unpackBool buf o
  let (strikeOut, o) ← unpackBool buf o
  let (weight, o) ← unpackUint buf o 2
  let (charSet, o) ← unpackUint buf o 1
  let (pixWidth, o) ← unpackUint buf o 2
  let (pixHeight, o) ← unpackUint buf o 2
  let (pitchAndFamily, o) ← unpackUint buf o 1
  let (avgWidth, o) ← unpackUint buf o 2
  let (maxWidth, o) ← unpackUint buf o 2
  let (firstChar, o) ← unpackUint buf o 1
  let (lastChar, o) ← unpackUint buf o 1
  let (defaultChar, o) ← unpackUint buf o 1
  let (breakChar, o) ← unpackUint buf o 1
  let (widthBytes, o) ← unpackUint buf o 2
  let (device, o) ← unpackUint buf o 2
  let (faceData, o) ← unpackUint buf o 2
  let (bitsPointer, o) ← unpackUint buf o 2
  let (bitsOffset, o) ← unpackUint buf o 2
  let (reserved, _) ← unpackUint buf o 1
  pure
    { Version := version, Size := size, Copyright := copyright, Type_ := type,
      Points := points, VertRes := vertRes, HorizRes := horizRes, Ascent := ascent,
      InternalLeading := internalLeading, ExternalLeading := externalLeading,
      Italic := italic, Underline := underline, StrikeOut := strikeOut,
      Weight := weight, CharSet := charSet, PixWidth := pixWidth,
      PixHeight := pixHeight, PitchAndFamily := pitchAndFamily, AvgWidth := avgWidth,
      MaxWidth := maxWidth, FirstChar := firstChar, LastChar := lastChar,
      DefaultChar := defaultChar, BreakChar := breakChar, WidthBytes := widthBytes,
      Device := device, FaceData := faceData, BitsPointer := bitsPointer,
      BitsOffset := bitsOffset, Reserved := reserved, Name := [], Face := Face.zero }

/-- Go's `trimLeftByte`: drops the leading bytes equal to `c`. -/
def trimLeftByte (c : Byte) : List Byte → List Byte
  | [] => []
  | b :: bs => if b = c then trimLeftByte c bs else b :: bs

/-- Go's `trimRightByte`: drops the trailing bytes equal to `c`. -/
def trimRightByte (c : Byte) (s : List Byte) : List Byte :=
  (trimLeftByte c s.reverse).reverse

/-- `strings.Trim(s, " ")`: for a one-byte ASCII cutset Go trims that byte on
the right and then on the left. -/
def stringsTrimSpace (s : List Byte) : List Byte :=
  trimLeftByte 0x20 (trimRightByte 0x20 s)

/-- The bytes up to and including the first `delim`, if there is one. -/
def readUntil (delim : Byte) : List Byte → Option (List Byte)
  | [] => none
  | b :: bs =>
    if b = delim then some [b]
    else
      match readUntil delim bs with
      | none => none
      | some line => some (b :: line)

/-- `bufio.NewReader(r).ReadString(delim)` with the cursor at `pos`: the bytes
up to and including the first `delim`, or `EOF` when the stream ends first. -/
def ReadString (data : List Byte) (pos : Nat) (delim : Byte) : Except Error (List Byte) :=
  match readUntil delim (data.drop pos) with
  | none => .error .EOF
  | some line => .ok line

/-! ## font.go: the glyph loops -/

/-- A counted loop `for i := i0; i < i0 + n; i++` whose body may return an
error, which ends the enclosing function. -/
def forLoop {σ : Type} (body : Nat → σ → Except Error σ) : Nat → Nat → σ → Except Error σ
  | 0, _, st => .ok st
  | n + 1, i, st =>
    match body i st with
    | .error e => .error e
    | .ok st => forLoop body n (i + 1) st

/-- The assignment `fontmask.Pix[addr] = v`; an index outside the slice is a
run-time panic. -/
def setPix (pix : List Byte) (addr : Nat) (v : Byte) : Except Error (List Byte) :=
  if addr < pix.length then .ok (pix.set addr v) else .error .indexOutOfRange

/-- `mask := uint8(0x80)` (font.go 210). -/
def mask : Nat := 0x80

/-- The loop over `bits` (font.go 224-240); `n` iterations are left, `b` is
the `uint8` being shifted. -/
def bitsLoop (Width column rowAddr : Nat) :
    Nat → Nat → Nat → List Byte → Except Error (List Byte)
  | 0, _, _, pix => .ok pix
  | n + 1, bits, b, pix =>
    -- don't try to put filler bits into mask
    if bits + column * 8 ≥ Width then .ok pix
    else
      let addr := rowAddr + bits + column * 8
      -- check if first bit is set
      match setPix pix addr (if b &&& mask = mask then 0xff else 0x00) with
      | .error e => .error e
      | .ok pix =>
        -- goto next bit
        bitsLoop Width column rowAddr n (bits + 1) ((b <<< 1) % 256) pix

/-- Body of the loop over `row` (font.go 215-242).  The state is the stream
cursor and the pixel buffer. -/
def rowBody (data : List Byte) (Width column maskOffsetAddress : Nat)
    (row : Nat) (st : Nat × List Byte) : Except Error (Nat × List Byte) :=
  -- read byte
  match binaryRead data st.1 1 with
  | .error e => .error e
  | .ok (b, pos) =>
    let rowAddr := maskOffsetAddress + row * Width
    match bitsLoop Width column rowAddr 8 0 b st.2 with
    | .error e => .error e
    | .ok pix => .ok (pos, pix)

/-- Body of the loop over `column` (font.go 213-243). -/
def columnBody (data : List Byte) (Width Height maskOffsetAddress : Nat)
    (column : Nat) (st : Nat × List Byte) : Except Error (Nat × List Byte) :=
  forLoop (rowBody data Width column maskOffsetAddress) Height 0 st

/-- The layout `char` chosen from the version (font.go 122-130): `Start` is
the table start, `Size` the entry size. -/
def charLayout (Version : Nat) : Resource :=
  if Version = 0x200 then { Start := 0x76, Size := 4, Type_ := 0 }
  else { Start := 0x94, Size := 6, Type_ := 0 }

/-- Reading char-table entry `j` (font.go 176-202): the `width` field and the
`offset` field. -/
def readCharEntry (data : List Byte) (font char : Resource) (j : Nat) :
    Except Error (Nat × Nat) :=
  let charPos := font.Start + char.Start + char.Size * j
  -- read width
  match binaryRead data charPos 2 with
  | .error e => .error e
  | .ok (width, pos) =>
    -- read offset
    match (if char.Size = 4 then binaryRead data pos 2 else binaryRead data pos 4) with
    | .error e => .error e
    | .ok (offset, _) => .ok (width, offset)

/-- `pk := int((width + 7) / 8)` (font.go 211), a `uint16` computation. -/
def columnsPerRow (width : Nat) : Nat :=
  ((width + 7) % 65536) / 8

/-- Body of the loop over the glyph index `j` (font.go 172-245).  Every
iteration starts with absolute seeks, so only the pixel buffer is carried
from one glyph to the next. -/
def glyphBody (data : List Byte) (font char : Resource) (Width Height : Nat)
    (j : Nat) (pix : List Byte) : Except Error (List Byte) :=
  -- address of the glyph in the mask
  let maskOffsetAddress := j * Height * Width
  match readCharEntry data font char j with
  | .error e => .error e
  | .ok (width, offset) =>
    -- read data
    let charBitPos := font.Start + offset
    let pk := columnsPerRow width
    match forLoop (columnBody data Width Height maskOffsetAddress) pk 0 (charBitPos, pix) with
    | .error e => .error e
    | .ok (_, pix) => .ok pix

/-- `glyphCount := int(fonts[i].LastChar - fonts[i].FirstChar)` (font.go 132),
a `uint8` subtraction. -/
def glyphCount (f : Font) : Nat :=
  (f.LastChar + 256 - f.FirstChar) % 256

/-- Reading the font name (font.go 109-120). -/
def readName (data : List Byte) (font : Resource) (f : Font) : Except Error Font :=
  if f.BitsPointer > 0 then
    -- uint16 addition
    let pos := (font.Start + f.BitsPointer) % 65536
    match ReadString data pos 0x00 with
    | .error e => .error e
    | .ok name =>
      -- remove delimiter (null byte)
      .ok { f with Name := name.dropLast }
  else .ok f

/-- Reading and parsing the font header (font.go 86-105). -/
def readFontHeader (data : List Byte) (font : Resource) : Except Error Font :=
  -- seek to font
  let c := CopyN data font.Start fontHeader
  match c.err with
  | some err => .error err
  | none =>
    if c.written ≠ fontHeader then .error .ErrFontHeaderTooShort
    else Font.Unpack c.buf

/-- The glyph loop of one font (font.go 122-132, 157, 172-245), run on the
zeroed buffer `make([]byte, glyphCount*Width*Height)`; `Face.Width` and
`Face.Height` are `PixWidth` and `PixHeight` (font.go 137-139). -/
def decodeGlyphs (data : List Byte) (font : Resource) (f : Font) : Except Error (List Byte) :=
  -- read chars
  let char := charLayout f.Version
  let glyphCount := glyphCount f
  let pix : List Byte := List.replicate (glyphCount * f.PixWidth * f.PixHeight) 0
  forLoop (glyphBody data font char f.PixWidth f.PixHeight) glyphCount 0 pix

/-- The value of `fonts[i].Face` (font.go 134-170) once the mask holds the
pixels `pix`. -/
def fontFace (f : Font) (pix : List Byte) : Face :=
  { Advance := f.AvgWidth, Width := f.PixWidth, Height := f.PixHeight,
    Ascent := f.PixHeight, Descent := 0, Left := 0,
    Mask :=
      { Stride := f.PixWidth,
        Rect := { Min := ⟨0, 0⟩, Max := ⟨f.PixWidth, glyphCount f * f.PixHeight⟩ },
        Pix := pix },
    Ranges := [{ Low := f.FirstChar, High := f.LastChar, Offset := 0 }] }

/-- The body of the loop over the font resources (font.go 85-246): decoding
of the font resource `font`. -/
def decodeFont (data : List Byte) (font : Resource) : Except Error Font :=
  match readFontHeader data font with
  | .error e => .error e
  | .ok f =>
    -- seek to font Name and fix copyright
    let f := { f with Copyright := stringsTrimSpace f.Copyright }
    match readName data font f with
    | .error e => .error e
    | .ok f =>
      match decodeGlyphs data font f with
      | .error e => .error e
      | .ok pix => .ok { f with Face := fontFace f pix }

/-- The loop over `fontResources` (font.go 85-246). -/
def decodeFonts (data : List Byte) : List Resource → Except Error (List Font)
  | [] => .ok []
  | font :: rest =>
    match decodeFont data font with
    | .error e => .error e
    | .ok f =>
      match decodeFonts data rest with
      | .error e => .error e
      | .ok fs => .ok (f :: fs)

/-- `func ReadFonts(r io.ReadSeeker) ([]Font, error)` (font.go 76-249). -/
def ReadFonts (data : List Byte) : Except Error (List Font) :=
  match ReadMZ data with
  | .error err => .error err
  | .ok mz =>
    let fontResources := mz.Resources fontType
    decodeFonts data fontResources

/-! ## Hand-built streams -/

/-- The two little-endian bytes of a 16-bit value. -/
def le16 (n : Nat) : List Nat := [n % 256, n / 256 % 256]

/-- A run of `n` zero bytes. -/
def zeros (n : Nat) : List Nat := List.replicate n 0

/-- A byte string from numerals. -/
def toBytes (l : List Nat) : List Byte := l.map (fun n => Fin.ofNat n)

/-- A 64-byte MZ header with signature `"MZ"` and `COFFHeaderOffset = 0x40`. -/
def fixtureMZHeader : List Nat :=
  [0x4D, 0x5A] ++ zeros 58 ++ [0x40, 0, 0, 0]

/-- A minimal NE container of 128 bytes: the MZ header, an NE header at 0x40
whose resource table starts at relative offset 0x26, and a resource table
with the given shift and one font entry with the given raw start and raw
size. -/
def fixtureContainer (shift rawStart rawSize : Nat) : List Nat :=
  fixtureMZHeader
  ++ [0x4E, 0x45] ++ zeros 0x22 ++ le16 0x26
  ++ le16 shift ++ le16 0x8008 ++ le16 1 ++ zeros 4
  ++ le16 rawStart ++ le16 rawSize ++ zeros 8 ++ le16 0
  ++ zeros 2

/-- A 0x76-byte font header with a copyright of 60 spaces. -/
def fixtureFontHeader (version w h first last bitsPointer : Nat) : List Nat :=
  le16 version ++ zeros 4 ++ List.replicate 60 0x20 ++ zeros 20 ++ le16 w ++ le16 h ++ [0]
  ++ le16 w ++ le16 w ++ [first, last] ++ zeros 8 ++ le16 bitsPointer ++ zeros 11

/-- The three glyph bitmaps of `fixture`, eight rows of one byte each. -/
def fixtureBitmaps : List (List Nat) :=
  [[0x81, 0x42, 0x24, 0x18, 0x18, 0x24, 0x42, 0x81],
   [0xFF, 0x00, 0xFF, 0x00, 0xAA, 0x55, 0x0F, 0xF0],
   [0x01, 0x02, 0x04, 0x08, 0x10, 0x20, 0x40, 0x80]]

/-- A minimal NE file with one font resource at offset 128: version 0x200,
`firstChar = 0x20`, `lastChar = 0x22`, `pixWidth = pixHeight = 8`, three
char-table entries of width 8 and three glyph bitmaps. -/
def fixture : List Byte := toBytes (
  fixtureContainer 1 64 0 ++ fixtureFontHeader 0x200 8 8 0x20 0x22 0
  ++ le16 8 ++ le16 130 ++ le16 8 ++ le16 138 ++ le16 8 ++ le16 146
  ++ fixtureBitmaps.flatten)

/-- The same container with shift 4, raw start 0x1008 and raw size 0x1000:
the true byte offset `0x1008 * 2^4` is 65664 and the true size 65536. -/
def fixtureShifted : List Byte := toBytes (fixtureContainer 4 0x1008 0x1000)

/-- A stream of two bytes, `"MZ"`. -/
def fixtureShort : List Byte := toBytes [0x4D, 0x5A]

/-- The stream `fixture` cut after 200 bytes: 72 bytes follow the start of
its font resource. -/
def fixtureCutFont : List Byte := fixture.take 200

/-- A valid MZ header and nothing else: no byte at `COFFHeaderOffset`. -/
def fixtureHeaderOnly : List Byte := toBytes fixtureMZHeader

/-- A valid MZ header followed by `"PE\x00\x00"` at `COFFHeaderOffset`. -/
def fixturePE : List Byte := toBytes (fixtureMZHeader ++ [0x50, 0x45, 0, 0])

/-- A stream of 64 zero bytes: signature `0x0000`. -/
def fixtureNoSignature : List Byte := toBytes (zeros 64)

/-- The `n` bytes of the stream at offset `off` (fewer at the end). -/
def bytesAt (data : List Byte) (off n : Nat) : List Byte := (data.drop off).take n

/-- The value of the unsigned little-endian field of `n` bytes at `off`. -/
def fieldAt (data : List Byte) (off n : Nat) : Nat := leValue (bytesAt data off n)

/-- The container format in the words of the specification: NE when the two
bytes at the offset are `"NE"`, PE when they are not and the four bytes there
are `"PE\x00\x00"`, Other otherwise. -/
def specFormat (data : List Byte) (off : Nat) : fileFormat :=
  if bytesAt data off 2 = magicNE then .ne
  else if bytesAt data off 4 = magicPE then .pe
  else .other

/-- The four-byte preamble that `identifyFileFormat` compares: the bytes at
the offset, followed by zero bytes when fewer than four are left. -/
def preambleAt (data : List Byte) (off : Nat) : List Byte :=
  bytesAt data off 4 ++ List.replicate (4 - (bytesAt data off 4).length) 0

/-- The format of a four-byte preamble. -/
def preambleFormat (preamble : List Byte) : fileFormat :=
  if preamble.take 2 = magicNE then .ne
  else if preamble = magicPE then .pe
  else .other

/-- The descriptor list of a parse result, if it succeeded. -/
def resourcesOf (r : Except Error MZ) : Option (List Resource) :=
  match r with
  | .ok mz => some mz.resources
  | .error _ => none

/-- The error of a result, if it failed. -/
def errorOf {α : Type} (r : Except Error α) : Option Error :=
  match r with
  | .ok _ => none
  | .error e => some e

deriving instance DecidableEq for Except

/-- The fonts decoded from `fixture` (empty if decoding failed). -/
def fixtureFonts : List Font :=
  match ReadFonts fixture with
  | .ok fonts => fonts
  | .error _ => []

/-- The zero value of `Font`. -/
def Font.zero : Font :=
  { Version := 0, Size := 0, Copyright := [], Type_ := 0, Points := 0, VertRes := 0,
    HorizRes := 0, Ascent := 0, InternalLeading := 0, ExternalLeading := 0,
    Italic := false, Underline := false, StrikeOut := false, Weight := 0, CharSet := 0,
    PixWidth := 0, PixHeight := 0, PitchAndFamily := 0, AvgWidth := 0, MaxWidth := 0,
    FirstChar := 0, LastChar := 0, DefaultChar := 0, BreakChar := 0, WidthBytes := 0,
    Device := 0, FaceData := 0, BitsPointer := 0, BitsOffset := 0, Reserved := 0,
    Name := [], Face := Face.zero }

/-- The first font decoded from `fixture`. -/
def fixtureFont : Font := fixtureFonts.headD Font.zero

/-- The atlas bytes of a pattern of rows, one list of 0/1 pixels per row. -/
def inkRows (rows : List (List Nat)) : List Byte :=
  (rows.map (fun row => row.map (fun p => if p = 1 then (0xff : Byte) else 0x00))).flatten

/-- The first two glyph bitmaps of `fixture`, pixel by pixel. -/
def fixtureAtlas : List Byte := inkRows
  [[1,0,0,0,0,0,0,1], [0,1,0,0,0,0,1,0], [0,0,1,0,0,1,0,0], [0,0,0,1,1,0,0,0],
   [0,0,0,1,1,0,0,0], [0,0,1,0,0,1,0,0], [0,1,0,0,0,0,1,0], [1,0,0,0,0,0,0,1],
   [1,1,1,1,1,1,1,1], [0,0,0,0,0,0,0,0], [1,1,1,1,1,1,1,1], [0,0,0,0,0,0,0,0],
   [1,0,1,0,1,0,1,0], [0,1,0,1,0,1,0,1], [0,0,0,0,1,1,1,1], [1,1,1,1,0,0,0,0]]

/-! ## Specification vocabulary for the glyph loops -/

/-- The pixel value stored for the current byte: ink when its top bit is set
(font.go 232-238). -/
def ink (b : Nat) : Byte := if b &&& mask = mask then 0xff else 0x00

/-- The `uint8` value `b` after `t` executions of `b <<= 1`. -/
def shiftN : Nat → Nat → Nat
  | 0, b => b
  | t + 1, b => shiftN t ((b <<< 1) % 256)

/-- Outcome of a step: a result satisfies `Q`, and a failure is the end of
the stream (`EOF` or `ErrUnexpectedEOF`), never anything else. -/
def Post {σ : Type} (r : Except Error σ) (Q : σ → Prop) : Prop :=
  match r with
  | .ok s => Q s
  | .error e => e = .EOF ∨ e = .ErrUnexpectedEOF

/-- The buffer `pix` is `pix0` repainted according to `Wr`: each address that
`Wr` names holds the value `Wr` gives it, every other address is unchanged. -/
def Painted (pix0 pix : List Byte) (Wr : Nat → Byte → Prop) : Prop :=
  pix.length = pix0.length ∧
  (∀ a, (∀ v, ¬ Wr a v) → pix[a]? = pix0[a]?) ∧
  (∀ a v, Wr a v → pix[a]? = some v)

/-- Bit `k` of the stream byte at `bytePos`, in byte-column `c`, is painted at
address `rowAddr + k + c * 8` with value `v`. -/
def Paints (data : List Byte) (Width bytePos rowAddr c k a : Nat) (v : Byte) : Prop :=
  k < 8 ∧ k + c * 8 < Width ∧
    ∃ b : Byte, data[bytePos]? = some b ∧ a = rowAddr + k + c * 8 ∧ v = ink (shiftN k b.val)

/-- What the loop over `bits` writes for the byte value `b`, from bit `bits`
on, `n` iterations. -/
def WrBits (Width c rowAddr b bits n a : Nat) (v : Byte) : Prop :=
  ∃ k, bits ≤ k ∧ k < bits + n ∧ k + c * 8 < Width ∧ a = rowAddr + k + c * 8 ∧
    v = ink (shiftN (k - bits) b)

/-- What the first `i` iterations of the loop over `row` write; the cursor
stood at `p` before the loop. -/
def WrRows (data : List Byte) (Width c maskOffsetAddress p i a : Nat) (v : Byte) : Prop :=
  ∃ r k, r < i ∧ Paints data Width (p + r) (maskOffsetAddress + r * Width) c k a v

/-- What the first `i` iterations of the loop over `column` write; the cursor
stood at `p` before the loop. -/
def WrCols (data : List Byte) (Width Height maskOffsetAddress p i a : Nat) (v : Byte) : Prop :=
  ∃ c r k, c < i ∧ r < Height ∧
    Paints data Width (p + c * Height + r) (maskOffsetAddress + r * Width) c k a v

/-- What the first `i` iterations of the loop over the glyphs write. -/
def WrGlyphs (data : List Byte) (font char : Resource) (Width Height i a : Nat) (v : Byte) :
    Prop :=
  ∃ j width offset, j < i ∧ readCharEntry data font char j = .ok (width, offset) ∧
    WrCols data Width Height (j * Height * Width) (font.Start + offset) (columnsPerRow width) a v

/-- The first `i` iterations of the loop over `row` found their byte. -/
def RowsRead (data : List Byte) (p i : Nat) : Prop :=
  ∀ r, r < i → p + r < data.length

/-- The first `i` iterations of the loop over `column` found all their
bytes. -/
def ColsRead (data : List Byte) (Height p i : Nat) : Prop :=
  ∀ c r, c < i → r < Height → p + c * Height + r < data.length

/-- The first `i` iterations of the loop over the glyphs found their
char-table entry and all their bitmap bytes. -/
def GlyphsRead (data : List Byte) (font char : Resource) (Height i : Nat) : Prop :=
  ∀ j, j < i → ∃ width offset, readCharEntry data font char j = .ok (width, offset) ∧
    ColsRead data Height (font.Start + offset) (columnsPerRow width)

/-- The buffer the atlas starts from: `make([]byte, n)` (font.go 157). -/
def blankPix (f : Font) : List Byte :=
  List.replicate (glyphCount f * f.PixWidth * f.PixHeight) 0

/-- The font `f` is what `decodeFont` builds from the resource `font`: the
0x76 header bytes at `font.Start` unpacked, the copyright trimmed, the metrics
and the rune range filled in, and the atlas painted by the glyph loop from
the stream. -/
def Decoded (data : List Byte) (font : Resource) (f : Font) : Prop :=
  font.Start + 0x76 ≤ data.length ∧
  (∃ hdr, Font.Unpack (bytesAt data font.Start 0x76) = .ok hdr ∧
    f = { hdr with Copyright := stringsTrimSpace hdr.Copyright, Name := f.Name,
                   Face := f.Face }) ∧
  f.Face.Advance = f.AvgWidth ∧ f.Face.Width = f.PixWidth ∧ f.Face.Height = f.PixHeight ∧
  f.Face.Ascent = f.PixHeight ∧ f.Face.Descent = 0 ∧ f.Face.Left = 0 ∧
  f.Face.Mask.Stride = f.PixWidth ∧
  f.Face.Mask.Rect = { Min := ⟨0, 0⟩, Max := ⟨f.PixWidth, glyphCount f * f.PixHeight⟩ } ∧
  f.Face.Ranges = [{ Low := f.FirstChar, High := f.LastChar, Offset := 0 }] ∧
  GlyphsRead data font (charLayout f.Version) f.PixHeight (glyphCount f) ∧
  Painted (blankPix f) f.Face.Mask.Pix
    (WrGlyphs data font (charLayout f.Version) f.PixWidth f.PixHeight (glyphCount f))

/-! ## Further streams and specification vocabulary -/

/-- The stream `fixture` with a font name: the bytes `"Ab\x00"` follow the glyph
bitmaps and `BitsPointer` is 154, their offset from the resource start. -/
def fixtureNamed : List Byte :=
  (fixture ++ toBytes [0x41, 0x62, 0x00]).set (128 + 0x69) 154

/-- The stream `fixture` with `BitsPointer = 0xFFFF` and the byte `"A"` at
offset 127, just before the font resource at 128. -/
def fixtureNameWrap : List Byte :=
  ((fixture.set 127 0x41).set (128 + 0x69) 0xFF).set (128 + 0x6A) 0xFF

/-- The stream `fixture` with the width field of char-table entry 0 set to
0xFFFF. -/
def fixtureWide : List Byte :=
  (fixture.set (128 + 0x76) 0xFF).set (128 + 0x76 + 1) 0xFF

/-- A font resource with `firstChar = 0xFF`, `lastChar = 0x00`, glyphs of
3 by 2 pixels and a char table of one entry, of width 0. -/
def fixtureWrapped : List Byte := toBytes (
  fixtureContainer 1 64 0 ++ fixtureFontHeader 0x200 3 2 0xFF 0x00 0 ++ zeros 4)

/-- The fonts decoded from a stream (empty if decoding failed). -/
def fontsOf (data : List Byte) : List Font :=
  match ReadFonts data with
  | .ok fonts => fonts
  | .error _ => []

/-- The header after `fonts[i].Copyright = strings.Trim(...)` (font.go 108). -/
def withTrimmedCopyright (f : Font) : Font :=
  { f with Copyright := stringsTrimSpace f.Copyright }

/-- The descriptors of the `n` consecutive 12-byte entries that start at
`base`, for a block of type `tag` and the table shift `shift`. -/
def specEntries (data : List Byte) (shift tag base n : Nat) : List Resource :=
  (List.range n).map (fun i =>
    { Start := (fieldAt data (base + 12 * i) 2 <<< shift) % 65536,
      Size := (fieldAt data (base + 12 * i + 2) 2 <<< shift) % 65536,
      Type_ := tag })

/-- The resource table in the words of the specification: `Table data shift
pos rs endPos` holds when the type blocks that start at `pos` describe the
descriptors `rs` and the terminating zero tag ends at `endPos`.  A block is
an 8-byte head (tag, count, 4 reserved bytes) followed by `count` entries of
12 bytes. -/
inductive Table (data : List Byte) (shift : Nat) : Nat → List Resource → Nat → Prop where
  | done (pos : Nat) (hlen : pos + 2 ≤ data.length) (htag : fieldAt data pos 2 = 0) :
      Table data shift pos [] (pos + 2)
  | block (pos : Nat) (rest : List Resource) (endPos : Nat)
      (hlen : pos + 4 ≤ data.length) (htag : fieldAt data pos 2 ≠ 0)
      (hrest : Table data shift (pos + 8 + 12 * fieldAt data (pos + 2) 2) rest endPos) :
      Table data shift pos
        (specEntries data shift (fieldAt data pos 2) (pos + 8) (fieldAt data (pos + 2) 2) ++ rest)
        endPos

/-- The two results `(*MZ, error)` of `ReadMZ`, one pair per return statement
(mz.go 65-89). -/
def ReadMZResults (data : List Byte) : Option MZ × Option Error :=
  match MZ.readHeader data MZ.zero with
  | .error err => (none, some err)
  | .ok (mz, _) =>
    match MZ.identifyFileFormat data mz with
    | .error err => (none, some err)
    | .ok (mz, _) =>
      if mz.format ≠ .ne then (none, some (.unsupportedFormat mz.format))
      else
        match MZ.readNEResourceTable data mz with
        | .error err => (none, some err)
        | .ok mz => (some mz, none)

/-- The loop of `ReadFonts` over `fontResources` with the slice `fonts` as its
state (font.go 83-248): the font decoded from resource `i` is stored in
`fonts[i]`; an error returns `nil, err`, the end of the loop `fonts, nil`. -/
def fontsLoop (data : List Byte) :
    List Resource → Nat → List Font → Option (List Font) × Option Error
  | [], _, fonts => (some fonts, none)
  | font :: rest, i, fonts =>
    match decodeFont data font with
    | .error err => (none, some err)
    | .ok f => fontsLoop data rest (i + 1) (fonts.set i f)

/-- The two results `([]Font, error)` of `ReadFonts`, one pair per return
statement (font.go 76-249). -/
def ReadFontsResults (data : List Byte) : Option (List Font) × Option Error :=
  match ReadMZ data with
  | .error err => (none, some err)
  | .ok mz =>
    let fontResources := mz.Resources fontType
    let fonts := List.replicate fontResources.length Font.zero
    fontsLoop data fontResources 0 fonts

/-- The pair of results that stands for an `Except` outcome. -/
def resultsOf {α : Type} (r : Except Error α) : Option α × Option Error :=
  match r with
  | .ok a => (some a, none)
  | .error e => (none, some e)

/-- The value of `mz.COFFHeaderOffset`: the u32 at 0x3C of the stream. -/
def coffOffset (data : List Byte) : Nat := fieldAt data 0x3C 4

/-- The absolute start of the resource table (mz.go 140-151), computed in
`uint32`. -/
def tableStart (data : List Byte) : Nat :=
  (coffOffset data + fieldAt data ((coffOffset data + 0x24) % 4294967296) 2) % 4294967296

/-- The shift value, the u16 at the table start (mz.go 160-164). -/
def tableShift (data : List Byte) : Nat := fieldAt data (tableStart data) 2

/-- The container parsed from a stream (the zero value if parsing failed). -/
def mzOf (data : List Byte) : MZ :=
  match ReadMZ data with
  | .ok mz => mz
  | .error _ => MZ.zero

/-- A container whose resource table (shift 0) has three type blocks: one
entry of type 0x8003, two of type 0x8008, one of type 0x8001, then the zero
tag, followed by bytes that are not part of the table. -/
def fixtureMixed : List Byte := toBytes (
  fixtureMZHeader
  ++ [0x4E, 0x45] ++ zeros 0x22 ++ le16 0x26
  ++ le16 0
  ++ le16 0x8003 ++ le16 1 ++ zeros 4 ++ le16 10 ++ le16 1 ++ zeros 8
  ++ le16 0x8008 ++ le16 2 ++ zeros 4 ++ le16 200 ++ le16 2 ++ zeros 8
    ++ le16 300 ++ le16 3 ++ zeros 8
  ++ le16 0x8001 ++ le16 1 ++ zeros 4 ++ le16 20 ++ le16 4 ++ zeros 8
  ++ le16 0
  ++ le16 0x8008 ++ le16 1 ++ zeros 4 ++ le16 77 ++ le16 7 ++ zeros 8)

/-- A container with two font resources (shift 0): the first at offset 140
is the font of `fixture`, the second starts at 0x7000, past the end of the
stream. -/
def fixtureTwo : List Byte := toBytes (
  fixtureMZHeader
  ++ [0x4E, 0x45] ++ zeros 0x22 ++ le16 0x26
  ++ le16 0
  ++ le16 0x8008 ++ le16 2 ++ zeros 4 ++ le16 140 ++ le16 0 ++ zeros 8
    ++ le16 0x7000 ++ le16 0 ++ zeros 8
  ++ le16 0
  ++ zeros 2
  ++ fixtureFontHeader 0x200 8 8 0x20 0x22 0
  ++ le16 8 ++ le16 130 ++ le16 8 ++ le16 138 ++ le16 8 ++ le16 146
  ++ fixtureBitmaps.flatten)

/-- The number of byte-columns of a glyph in the words of the specification:
`ceil(width / 8)`, as an exact natural number. -/
def ceilColumns (width : Nat) : Nat := (width + 7) / 8

/-- A font resource with one glyph of 12 by 2 pixels (`firstChar = 0x41`,
`lastChar = 0x42`, char-table entry of width 12): two byte-columns of two
rows, stored column by column as 0xF0, 0x0F (column 0) and 0xA5, 0xFF
(column 1). -/
def fixtureTwoColumns : List Byte := toBytes (
  fixtureContainer 1 64 0 ++ fixtureFontHeader 0x200 12 2 0x41 0x42 0
  ++ le16 12 ++ le16 122
  ++ [0xF0, 0x0F, 0xA5, 0xFF])

set_option maxRecDepth 100000

/-! ## Library primitives -/

theorem readFull_ok (buf : List Byte) (off n : Nat) (hn : 0 < n) (h : off + n ≤ buf.length) :
    readFull buf off n = .ok ((buf.drop off).take n, off + n) := by
  unfold readFull
  rw [if_neg (by omega), if_neg (by omega), if_neg (by omega)]

theorem binaryRead_ok (buf : List Byte) (off n : Nat) (hn : 0 < n) (h : off + n ≤ buf.length) :
    binaryRead buf off n = .ok (leValue ((buf.drop off).take n), off + n) := by
  unfold binaryRead
  rw [readFull_ok buf off n hn h]

theorem unpackUint_ok (buf : List Byte) (off n : Nat) (hn : 0 < n) (h : off + n ≤ buf.length) :
    unpackUint buf off n = .ok (leValue ((buf.drop off).take n), off + n) :=
  binaryRead_ok buf off n hn h

theorem unpackPad_ok (buf : List Byte) (off n : Nat) (hn : 0 < n) (h : off + n ≤ buf.length) :
    unpackPad buf off n = .ok (off + n) := by
  unfold unpackPad
  rw [readFull_ok buf off n hn h]

theorem CopyN_short (data : List Byte) (pos n : Nat) (hn : 0 < n)
    (h : data.length < pos + n) : (CopyN data pos n).err = some .EOF := by
  unfold CopyN
  have : ¬ ((data.drop pos).take n).length = n := by
    rw [List.length_take, List.length_drop]; omega
  simp only [this, if_false]

theorem CopyN_full (data : List Byte) (pos n : Nat) (h : pos + n ≤ data.length) :
    CopyN data pos n =
      { buf := (data.drop pos).take n, written := n, err := none, pos := pos + n } := by
  unfold CopyN
  have : ((data.drop pos).take n).length = n := by
    rw [List.length_take, List.length_drop]; omega
  simp [this]

/-! ## The MZ header -/

theorem unpackMZ_ok (buf : List Byte) (m : MZ) (h : buf.length = 64) :
    ∃ mz, MZ.Unpack buf m = .ok mz ∧ mz.Signature = leValue (buf.take 2) ∧
      mz.COFFHeaderOffset = leValue ((buf.drop 60).take 4) ∧
      mz.format = m.format ∧ mz.resources = m.resources := by
  simp [MZ.Unpack, unpackUint_ok, unpackPad_ok, h, bind, Except.bind, pure, Except.pure]

theorem readHeader_short (data : List Byte) (m : MZ) (h : data.length < 64) :
    MZ.readHeader data m = .error .EOF := by
  unfold MZ.readHeader
  simp only [CopyN_short data 0 headerSize (by decide) (by simpa [headerSize] using h)]

theorem readHeader_long (data : List Byte) (m : MZ) (h : 64 ≤ data.length) :
    ∃ mz, mz.Signature = fieldAt data 0 2 ∧ mz.COFFHeaderOffset = fieldAt data 60 4 ∧
      mz.format = m.format ∧ mz.resources = m.resources ∧
      MZ.readHeader data m =
        if mz.Signature ≠ fileIdentifier then .error .ErrNoMZFile else .ok (mz, 64) := by
  have hlen : (data.take 64).length = 64 := by rw [List.length_take]; omega
  obtain ⟨mz, hu, hs, hc, hf, hr⟩ := unpackMZ_ok (data.take 64) m hlen
  refine ⟨mz, ?_, ?_, hf, hr, ?_⟩
  · rw [hs, List.take_take]; simp [fieldAt, bytesAt]
  · rw [hc, List.drop_take, List.take_take]; simp [fieldAt, bytesAt]
  · unfold MZ.readHeader
    rw [CopyN_full data 0 headerSize (by simpa [headerSize] using h)]
    simp [headerSize, hu]

theorem ReadMZ_short (data : List Byte) (h : data.length < 64) :
    ReadMZ data = .error .EOF := by
  unfold ReadMZ
  rw [readHeader_short data MZ.zero h]

theorem readFontHeader_short (data : List Byte) (font : Resource)
    (h : data.length < font.Start + 0x76) : readFontHeader data font = .error .EOF := by
  unfold readFontHeader
  simp only [CopyN_short data font.Start fontHeader (by decide) (by simpa [fontHeader] using h)]

theorem decodeFont_short (data : List Byte) (font : Resource)
    (h : data.length < font.Start + 0x76) : decodeFont data font = .error .EOF := by
  unfold decodeFont
  rw [readFontHeader_short data font h]

theorem Read_ok (data : List Byte) (pos : Nat) (h : pos < data.length) :
    Read data pos 4 = .ok (preambleAt data pos, pos + (bytesAt data pos 4).length) := by
  unfold Read
  rw [if_neg (by omega)]
  rfl

theorem Read_eof (data : List Byte) (pos n : Nat) (h : data.length ≤ pos) :
    Read data pos n = .error .EOF := by
  unfold Read
  rw [if_pos h]

theorem identifyFileFormat_ok (data : List Byte) (mz : MZ) (hother : mz.format = .other)
    (h : mz.COFFHeaderOffset < data.length) :
    ∃ mz2 pos, MZ.identifyFileFormat data mz = .ok (mz2, pos) ∧
      mz2.format = preambleFormat (preambleAt data mz.COFFHeaderOffset) ∧
      mz2.COFFHeaderOffset = mz.COFFHeaderOffset ∧ mz2.resources = mz.resources := by
  by_cases h1 : (preambleAt data mz.COFFHeaderOffset).take 2 = magicNE
  · refine ⟨{ mz with format := .ne }, mz.COFFHeaderOffset + (bytesAt data mz.COFFHeaderOffset 4).length, ?_, ?_, rfl, rfl⟩
    · simp only [MZ.identifyFileFormat, Read_ok data _ h, if_pos h1.symm]
    · simp only [preambleFormat, if_pos h1]
  · have h1n : ¬ magicNE = (preambleAt data mz.COFFHeaderOffset).take 2 := fun e => h1 e.symm
    by_cases h2 : preambleAt data mz.COFFHeaderOffset = magicPE
    · refine ⟨{ mz with format := .pe }, mz.COFFHeaderOffset + (bytesAt data mz.COFFHeaderOffset 4).length, ?_, ?_, rfl, rfl⟩
      · simp only [MZ.identifyFileFormat, Read_ok data _ h, if_neg h1n,
          if_pos h2.symm]
      · simp only [preambleFormat, if_neg h1, if_pos h2]
    · have h2n : ¬ magicPE = preambleAt data mz.COFFHeaderOffset := fun e => h2 e.symm
      refine ⟨mz, mz.COFFHeaderOffset + (bytesAt data mz.COFFHeaderOffset 4).length, ?_, ?_, rfl, rfl⟩
      · simp only [MZ.identifyFileFormat, Read_ok data _ h, if_neg h1n,
          if_neg h2n]
      · simp only [preambleFormat, if_neg h1, if_neg h2, hother]

theorem preambleFormat_eq_specFormat (data : List Byte) (off : Nat)
    (h : off + 4 ≤ data.length) :
    preambleFormat (preambleAt data off) = specFormat data off := by
  have hl : (bytesAt data off 4).length = 4 := by
    unfold bytesAt; rw [List.length_take, List.length_drop]; omega
  have hp : preambleAt data off = bytesAt data off 4 := by
    unfold preambleAt; rw [hl]; simp
  have h2 : (bytesAt data off 4).take 2 = bytesAt data off 2 := by
    unfold bytesAt; rw [List.take_take]; simp
  unfold preambleFormat specFormat
  rw [hp, h2]

theorem resourcesLoop_eq (t : Nat) (l acc : List Resource) :
    resourcesLoop t l acc = acc ++ l.filter (fun r => decide (r.Type_ = t)) := by
  induction l generalizing acc with
  | nil => simp [resourcesLoop]
  | cons r rest ih =>
    unfold resourcesLoop
    by_cases h : r.Type_ = t
    · rw [if_pos h, ih, List.filter_cons_of_pos (by simpa using h)]
      simp
    · rw [if_neg h, ih, List.filter_cons_of_neg (by simpa using h)]

theorem Resources_eq (mz : MZ) (t : Nat) :
    mz.Resources t = mz.resources.filter (fun r => decide (r.Type_ = t)) := by
  unfold MZ.Resources
  rw [resourcesLoop_eq]
  simp

theorem ReadMZ_no_preamble (data : List Byte) (hlen : 64 ≤ data.length)
    (hsig : fieldAt data 0 2 = 0x5A4D) (hoff : data.length ≤ fieldAt data 60 4) :
    ReadMZ data = .error .EOF := by
  obtain ⟨mz, hs, hc, -, -, hr⟩ := readHeader_long data MZ.zero hlen
  rw [if_neg (by rw [hs, hsig]; decide)] at hr
  unfold ReadMZ
  simp only [hr]
  simp only [MZ.identifyFileFormat, Read_eof data mz.COFFHeaderOffset 4 (by rw [hc]; exact hoff)]

theorem ReadMZ_identify (data : List Byte) (hlen : 64 ≤ data.length)
    (hsig : fieldAt data 0 2 = 0x5A4D) (hoff : fieldAt data 60 4 < data.length) :
    ∃ mz pos mz2 pos2, MZ.readHeader data MZ.zero = .ok (mz, pos) ∧
      mz.COFFHeaderOffset = fieldAt data 60 4 ∧
      MZ.identifyFileFormat data mz = .ok (mz2, pos2) ∧
      mz2.format = preambleFormat (preambleAt data (fieldAt data 60 4)) ∧
      mz2.COFFHeaderOffset = fieldAt data 60 4 ∧ mz2.resources = [] := by
  obtain ⟨mz, hs, hc, hf, hres, hr⟩ := readHeader_long data MZ.zero hlen
  rw [if_neg (by rw [hs, hsig]; decide)] at hr
  obtain ⟨mz2, pos2, hi, hfmt, hc2, hres2⟩ :=
    identifyFileFormat_ok data mz hf (by rw [hc]; exact hoff)
  rw [hc] at hfmt
  exact ⟨mz, 64, mz2, pos2, hr, hc, hi, hfmt, by rw [hc2, hc], by rw [hres2, hres]; rfl⟩

theorem ReadMZ_not_NE (data : List Byte) (hlen : 64 ≤ data.length)
    (hsig : fieldAt data 0 2 = 0x5A4D) (hoff : fieldAt data 60 4 < data.length)
    (hne : preambleFormat (preambleAt data (fieldAt data 60 4)) ≠ .ne) :
    ReadMZ data
      = .error (.unsupportedFormat (preambleFormat (preambleAt data (fieldAt data 60 4)))) := by
  obtain ⟨mz, pos, mz2, pos2, hr, -, hi, hfmt, -, -⟩ := ReadMZ_identify data hlen hsig hoff
  unfold ReadMZ
  simp only [hr, hi]
  rw [if_pos (by rw [hfmt]; exact hne), hfmt]

/-! ## Loops and painted buffers -/

theorem Post_ok {σ : Type} {r : Except Error σ} {Q : σ → Prop} {s : σ}
    (h : Post r Q) (hr : r = .ok s) : Q s := by
  subst hr; exact h

theorem Post_error {σ : Type} {r : Except Error σ} {Q : σ → Prop} {e : Error}
    (h : Post r Q) (hr : r = .error e) : e = .EOF ∨ e = .ErrUnexpectedEOF := by
  subst hr; exact h

theorem Post_no_panic {σ : Type} {r : Except Error σ} {Q : σ → Prop}
    (h : Post r Q) : r ≠ .error .indexOutOfRange := by
  intro hr
  rcases Post_error h hr with h | h <;> cases h

theorem Post_mono {σ : Type} {r : Except Error σ} {Q Q2 : σ → Prop}
    (h : Post r Q) (hq : ∀ s, r = .ok s → Q s → Q2 s) : Post r Q2 := by
  cases r with
  | error e => exact h
  | ok s => exact hq s rfl h

theorem forLoop_post {σ : Type} (body : Nat → σ → Except Error σ) (Inv : Nat → σ → Prop)
    (n i0 : Nat) (st : σ) (h0 : Inv i0 st)
    (hstep : ∀ i st, i0 ≤ i → i < i0 + n → Inv i st → Post (body i st) (Inv (i + 1))) :
    Post (forLoop body n i0 st) (Inv (i0 + n)) := by
  induction n generalizing i0 st with
  | zero => exact h0
  | succ n ih =>
    unfold forLoop
    have hb := hstep i0 st (Nat.le_refl _) (by omega) h0
    cases hbody : body i0 st with
    | error e => rw [hbody] at hb; exact hb
    | ok st1 =>
      rw [hbody] at hb
      have := ih (i0 + 1) st1 hb (fun i st hi1 hi2 => hstep i st (by omega) (by omega))
      rw [show i0 + (n + 1) = i0 + 1 + n by omega]
      exact this

theorem Painted.refl (pix : List Byte) (Wr : Nat → Byte → Prop) (h : ∀ a v, ¬ Wr a v) :
    Painted pix pix Wr :=
  ⟨rfl, fun _ _ => rfl, fun a v hw => absurd hw (h a v)⟩

theorem Painted.trans {pix0 pix1 pix2 : List Byte} {Wr1 Wr2 Wr : Nat → Byte → Prop}
    (h1 : Painted pix0 pix1 Wr1) (h2 : Painted pix1 pix2 Wr2)
    (hdisj : ∀ a v w, Wr1 a v → ¬ Wr2 a w)
    (hiff : ∀ a v, Wr a v ↔ Wr1 a v ∨ Wr2 a v) : Painted pix0 pix2 Wr := by
  refine ⟨h2.1.trans h1.1, fun a hn => ?_, fun a v hw => ?_⟩
  · rw [h2.2.1 a (fun v hv => hn v ((hiff a v).2 (Or.inr hv))),
      h1.2.1 a (fun v hv => hn v ((hiff a v).2 (Or.inl hv)))]
  · rcases (hiff a v).1 hw with hw1 | hw2
    · rw [h2.2.1 a (fun w => hdisj a v w hw1)]
      exact h1.2.2 a v hw1
    · exact h2.2.2 a v hw2

theorem Painted.congr {pix0 pix : List Byte} {Wr Wr2 : Nat → Byte → Prop}
    (h : Painted pix0 pix Wr) (hiff : ∀ a v, Wr2 a v ↔ Wr a v) : Painted pix0 pix Wr2 :=
  ⟨h.1, fun a hn => h.2.1 a (fun v hv => hn v ((hiff a v).2 hv)),
    fun a v hw => h.2.2 a v ((hiff a v).1 hw)⟩

theorem row_addr_inj (W r s x y : Nat) (hx : x < W) (hy : y < W)
    (h : r * W + x = s * W + y) : r = s ∧ x = y := by
  rcases Nat.lt_trichotomy r s with hlt | heq | hgt
  · have := Nat.mul_le_mul_right W (Nat.succ_le_of_lt hlt)
    rw [Nat.succ_mul] at this
    omega
  · subst heq; omega
  · have := Nat.mul_le_mul_right W (Nat.succ_le_of_lt hgt)
    rw [Nat.succ_mul] at this
    omega

theorem binaryRead_error (data : List Byte) (pos n : Nat) (e : Error)
    (h : binaryRead data pos n = .error e) : e = .EOF ∨ e = .ErrUnexpectedEOF := by
  unfold binaryRead readFull at h
  split at h <;> rename_i hh
  · split at hh
    · cases hh
    · split at hh
      · cases hh; cases h; exact Or.inl rfl
      · split at hh
        · cases hh; cases h; exact Or.inr rfl
        · cases hh
  · cases h

theorem binaryRead_one (data : List Byte) (pos v p : Nat)
    (h : binaryRead data pos 1 = .ok (v, p)) :
    p = pos + 1 ∧ ∃ b : Byte, data[pos]? = some b ∧ v = b.val := by
  have hlt : pos < data.length := by
    by_contra hc
    unfold binaryRead readFull at h
    rw [if_neg (by decide), if_pos (by omega)] at h
    cases h
  rw [binaryRead_ok data pos 1 (by decide) (by omega)] at h
  cases h
  refine ⟨rfl, data[pos], List.getElem?_eq_getElem hlt, ?_⟩
  rw [List.take_one_drop_eq_of_lt_length hlt]
  simp [leValue]

theorem setPix_ok (pix : List Byte) (addr : Nat) (v : Byte) (h : addr < pix.length) :
    setPix pix addr v = .ok (pix.set addr v) := by
  unfold setPix
  rw [if_pos h]

theorem bitsLoop_spec (Width c rowAddr : Nat) (n bits b : Nat) (pix : List Byte)
    (hroom : rowAddr + Width ≤ pix.length) :
    ∃ pix2, bitsLoop Width c rowAddr n bits b pix = .ok pix2 ∧
      Painted pix pix2 (WrBits Width c rowAddr b bits n) := by
  induction n generalizing bits b pix with
  | zero =>
    refine ⟨pix, rfl, Painted.refl _ _ ?_⟩
    rintro a v ⟨k, h1, h2, -⟩
    omega
  | succ n ih =>
    unfold bitsLoop
    by_cases hbrk : bits + c * 8 ≥ Width
    · rw [if_pos hbrk]
      refine ⟨pix, rfl, Painted.refl _ _ ?_⟩
      rintro a v ⟨k, h1, -, h3, -⟩
      omega
    · rw [if_neg hbrk]
      have haddr : rowAddr + bits + c * 8 < pix.length := by omega
      simp only [setPix_ok pix _ _ haddr]
      obtain ⟨pix2, hrun, hp⟩ := ih (bits + 1) ((b <<< 1) % 256)
        (pix.set (rowAddr + bits + c * 8) (if b &&& mask = mask then 0xff else 0x00))
        (by rw [List.length_set]; exact hroom)
      refine ⟨pix2, hrun, ?_⟩
      have hfirst : Painted pix
          (pix.set (rowAddr + bits + c * 8) (if b &&& mask = mask then 0xff else 0x00))
          (fun a v => a = rowAddr + bits + c * 8 ∧ v = ink b) := by
        refine ⟨List.length_set _ _ _, fun a hn => ?_, fun a v hw => ?_⟩
        · have hne : rowAddr + bits + c * 8 ≠ a := fun e => hn (ink b) ⟨e.symm, rfl⟩
          rw [List.getElem?_set_ne hne]
        · rw [hw.1, hw.2, List.getElem?_set_self haddr]
          rfl
      refine Painted.trans hfirst hp ?_ ?_
      · rintro a v w ⟨ha, -⟩ ⟨k, h1, -, -, h4, -⟩
        omega
      · intro a v
        constructor
        · rintro ⟨k, h1, h2, h3, h4, h5⟩
          by_cases hk : k = bits
          · left
            subst hk
            rw [Nat.sub_self] at h5
            exact ⟨h4, h5⟩
          · right
            refine ⟨k, by omega, by omega, h3, h4, ?_⟩
            rw [h5, show k - bits = (k - (bits + 1)) + 1 by omega]
            rfl
        · rintro (⟨ha, hv⟩ | ⟨k, h1, h2, h3, h4, h5⟩)
          · exact ⟨bits, Nat.le_refl _, by omega, by omega, ha, by rw [Nat.sub_self]; exact hv⟩
          · refine ⟨k, by omega, by omega, h3, h4, ?_⟩
            rw [h5, show k - bits = (k - (bits + 1)) + 1 by omega]
            rfl

theorem rowBody_post (data : List Byte) (Width c maskOffsetAddress p Height : Nat)
    (pix0 : List Byte) (hroom : maskOffsetAddress + Height * Width ≤ pix0.length)
    (i : Nat) (hi : i < Height) (st : Nat × List Byte)
    (hinv : st.1 = p + i ∧ RowsRead data p i ∧
      Painted pix0 st.2 (WrRows data Width c maskOffsetAddress p i)) :
    Post (rowBody data Width c maskOffsetAddress i st)
      (fun st2 => st2.1 = p + (i + 1) ∧ RowsRead data p (i + 1) ∧
        Painted pix0 st2.2 (WrRows data Width c maskOffsetAddress p (i + 1))) := by
  obtain ⟨hpos, hfed, hp⟩ := hinv
  unfold rowBody
  cases hread : binaryRead data st.1 1 with
  | error e => exact binaryRead_error _ _ _ _ hread
  | ok vp =>
    obtain ⟨v, q⟩ := vp
    obtain ⟨hq, b, hb, hv⟩ := binaryRead_one _ _ _ _ hread
    have hmul : (i + 1) * Width ≤ Height * Width := Nat.mul_le_mul_right Width hi
    rw [Nat.succ_mul] at hmul
    obtain ⟨pix2, hrun, hp2⟩ := bitsLoop_spec Width c (maskOffsetAddress + i * Width) 8 0 v st.2
      (by rw [hp.1]; omega)
    simp only [hrun]
    have hbl : p + i < data.length := by
      rw [← hpos]
      exact (List.getElem?_eq_some.mp hb).1
    refine ⟨by rw [hq, hpos]; omega, ?_, Painted.trans hp hp2 ?_ ?_⟩
    · intro r hr
      by_cases hri : r = i
      · rw [hri]; exact hbl
      · exact hfed r (by omega)
    · rintro a w1 w2 ⟨r, k, hr, hk, hkw, b1, -, ha, -⟩ ⟨k2, -, -, hk2w, ha2, -⟩
      have := row_addr_inj Width r i (k + c * 8) (k2 + c * 8) hkw hk2w (by omega)
      omega
    · intro a w
      constructor
      · rintro ⟨r, k, hr, hk, hkw, b1, hb1, ha, hw⟩
        by_cases hri : r = i
        · right
          subst hri
          rw [← hpos, hb] at hb1
          cases hb1
          exact ⟨k, Nat.zero_le _, by omega, hkw, ha, by rw [hw, hv]; rfl⟩
        · left
          exact ⟨r, k, by omega, hk, hkw, b1, hb1, ha, hw⟩
      · rintro (⟨r, k, hr, hk, hkw, b1, hb1, ha, hw⟩ | ⟨k, -, hk, hkw, ha, hw⟩)
        · exact ⟨r, k, by omega, hk, hkw, b1, hb1, ha, hw⟩
        · exact ⟨i, k, by omega, by omega, hkw, b, by rw [← hpos]; exact hb, ha,
            by rw [hw, hv]; rfl⟩

theorem columnBody_post (data : List Byte) (Width Height maskOffsetAddress p : Nat)
    (pix0 : List Byte) (hroom : maskOffsetAddress + Height * Width ≤ pix0.length)
    (i : Nat) (st : Nat × List Byte)
    (hinv : st.1 = p + i * Height ∧ ColsRead data Height p i ∧
      Painted pix0 st.2 (WrCols data Width Height maskOffsetAddress p i)) :
    Post (columnBody data Width Height maskOffsetAddress i st)
      (fun st2 => st2.1 = p + (i + 1) * Height ∧ ColsRead data Height p (i + 1) ∧
        Painted pix0 st2.2 (WrCols data Width Height maskOffsetAddress p (i + 1))) := by
  obtain ⟨hpos, hfed, hp⟩ := hinv
  unfold columnBody
  have hrows := forLoop_post (rowBody data Width i maskOffsetAddress)
    (fun r st2 => st2.1 = st.1 + r ∧ RowsRead data st.1 r ∧
      Painted st.2 st2.2 (WrRows data Width i maskOffsetAddress st.1 r))
    Height 0 st
    ⟨rfl, fun r hr => absurd hr (Nat.not_lt_zero r),
      Painted.refl _ _ (by rintro a v ⟨r, k, hr, -⟩; omega)⟩
    (fun r st2 _ hr hinv2 =>
      rowBody_post data Width i maskOffsetAddress st.1 Height st.2 (by rw [hp.1]; exact hroom)
        r (by omega) st2 hinv2)
  refine Post_mono hrows (fun st2 _ hq => ?_)
  obtain ⟨hpos2, hfed2, hp2⟩ := hq
  refine ⟨by rw [hpos2, hpos, Nat.succ_mul]; omega, ?_, Painted.trans hp hp2 ?_ ?_⟩
  · intro c r hc hr
    by_cases hci : c = i
    · have := hfed2 r (by omega)
      rw [hpos] at this
      rw [hci]
      exact this
    · exact hfed c r (by omega) hr
  · rintro a w1 w2 ⟨c, r, k, hc, -, hk, hkw, -, -, ha, -⟩ ⟨r2, k2, -, hk2, hk2w, -, -, ha2, -⟩
    have := row_addr_inj Width r r2 (k + c * 8) (k2 + i * 8) hkw hk2w (by omega)
    omega
  · intro a w
    rw [Nat.zero_add, hpos]
    constructor
    · rintro ⟨c, r, k, hc, hr, hpaint⟩
      by_cases hci : c = i
      · right
        subst hci
        exact ⟨r, k, hr, hpaint⟩
      · left
        exact ⟨c, r, k, by omega, hr, hpaint⟩
    · rintro (⟨c, r, k, hc, hr, hpaint⟩ | ⟨r, k, hr, hpaint⟩)
      · exact ⟨c, r, k, by omega, hr, hpaint⟩
      · exact ⟨i, r, k, by omega, hr, hpaint⟩

theorem readCharEntry_error (data : List Byte) (font char : Resource) (j : Nat) (e : Error)
    (h : readCharEntry data font char j = .error e) : e = .EOF ∨ e = .ErrUnexpectedEOF := by
  simp only [readCharEntry] at h
  cases h1 : binaryRead data (font.Start + char.Start + char.Size * j) 2 with
  | error e1 =>
    simp only [h1] at h
    cases h
    exact binaryRead_error _ _ _ _ h1
  | ok vp =>
    obtain ⟨v, q⟩ := vp
    simp only [h1] at h
    cases h2 : (if char.Size = 4 then binaryRead data q 2 else binaryRead data q 4) with
    | error e2 =>
      simp only [h2] at h
      cases h
      split at h2
      · exact binaryRead_error _ _ _ _ h2
      · exact binaryRead_error _ _ _ _ h2
    | ok vp2 =>
      simp only [h2] at h
      cases h

theorem glyphBody_post (data : List Byte) (font char : Resource) (Width Height : Nat)
    (pix0 : List Byte) (i : Nat) (hroom : i * Height * Width + Height * Width ≤ pix0.length)
    (pix : List Byte)
    (hinv : GlyphsRead data font char Height i ∧
      Painted pix0 pix (WrGlyphs data font char Width Height i)) :
    Post (glyphBody data font char Width Height i pix)
      (fun pix2 => GlyphsRead data font char Height (i + 1) ∧
        Painted pix0 pix2 (WrGlyphs data font char Width Height (i + 1))) := by
  obtain ⟨hfed, hinv⟩ := hinv
  unfold glyphBody
  cases hentry : readCharEntry data font char i with
  | error e => exact readCharEntry_error _ _ _ _ _ hentry
  | ok wo =>
    obtain ⟨width, offset⟩ := wo
    have hcols := forLoop_post (columnBody data Width Height (i * Height * Width))
      (fun c st2 => st2.1 = font.Start + offset + c * Height ∧
        ColsRead data Height (font.Start + offset) c ∧
        Painted pix st2.2 (WrCols data Width Height (i * Height * Width) (font.Start + offset) c))
      (columnsPerRow width) 0 (font.Start + offset, pix)
      ⟨by simp, fun c r hc _ => absurd hc (Nat.not_lt_zero c),
        Painted.refl _ _ (by rintro a v ⟨c, r, k, hc, -⟩; omega)⟩
      (fun c st2 _ _ hinv2 =>
        columnBody_post data Width Height (i * Height * Width) (font.Start + offset) pix
          (by rw [hinv.1]; exact hroom) c st2 hinv2)
    simp only
    cases hrun : forLoop (columnBody data Width Height (i * Height * Width))
        (columnsPerRow width) 0 (font.Start + offset, pix) with
    | error e =>
      rw [hrun] at hcols
      exact hcols
    | ok st2 =>
      rw [hrun] at hcols
      obtain ⟨-, hfed2, hp2⟩ := hcols
      rw [Nat.zero_add] at hp2 hfed2
      refine ⟨?_, Painted.trans hinv hp2 ?_ ?_⟩
      · intro j hj
        by_cases hji : j = i
        · rw [hji]
          exact ⟨width, offset, hentry, hfed2⟩
        · exact hfed j (by omega)
      · rintro a w1 w2 ⟨j, w, off, hj, -, c, r, k, -, hr, -, hkw, -, -, ha, -⟩
          ⟨c2, r2, k2, -, hr2, -, hk2w, -, -, ha2, -⟩
        have hj1 := Nat.mul_le_mul_right Height (Nat.succ_le_of_lt hj)
        rw [Nat.succ_mul] at hj1
        have := row_addr_inj Width (j * Height + r) (i * Height + r2) (k + c * 8) (k2 + c2 * 8)
          hkw hk2w (by rw [Nat.add_mul, Nat.add_mul]; omega)
        omega
      · intro a w
        constructor
        · rintro ⟨j, w1, off, hj, hent, hcolsj⟩
          by_cases hji : j = i
          · right
            subst hji
            rw [hentry] at hent
            cases hent
            exact hcolsj
          · left
            exact ⟨j, w1, off, by omega, hent, hcolsj⟩
        · rintro (⟨j, w1, off, hj, hent, hcolsj⟩ | hcolsi)
          · exact ⟨j, w1, off, by omega, hent, hcolsj⟩
          · exact ⟨i, width, offset, by omega, hentry, hcolsi⟩

/-! ## One font resource -/

theorem unpackBytes_ok (buf : List Byte) (off n : Nat) (hn : 0 < n) (h : off + n ≤ buf.length) :
    unpackBytes buf off n = .ok ((buf.drop off).take n, off + n) :=
  readFull_ok buf off n hn h

theorem unpackBool_ok (buf : List Byte) (off : Nat) (h : off + 1 ≤ buf.length) :
    unpackBool buf off = .ok (decide (leValue ((buf.drop off).take 1) ≠ 0), off + 1) := by
  unfold unpackBool
  rw [binaryRead_ok buf off 1 (by decide) h]

theorem unpackFont_ok (buf : List Byte) (h : buf.length = 118) :
    ∃ hdr, Font.Unpack buf = .ok hdr := by
  simp [Font.Unpack, unpackUint_ok, unpackBytes_ok, unpackBool_ok, h, bind, Except.bind,
    pure, Except.pure]

theorem readFontHeader_long (data : List Byte) (font : Resource)
    (h : font.Start + 0x76 ≤ data.length) :
    ∃ hdr, readFontHeader data font = .ok hdr ∧
      Font.Unpack (bytesAt data font.Start 0x76) = .ok hdr := by
  have hlen : (bytesAt data font.Start 0x76).length = 118 := by
    unfold bytesAt; rw [List.length_take, List.length_drop]; omega
  obtain ⟨hdr, hu⟩ := unpackFont_ok _ hlen
  refine ⟨hdr, ?_, hu⟩
  unfold readFontHeader
  rw [CopyN_full data font.Start fontHeader (by simpa [fontHeader] using h)]
  simpa [fontHeader, bytesAt] using hu

theorem readName_cases (data : List Byte) (font : Resource) (f : Font) :
    readName data font f = .error .EOF ∨
      ∃ name, readName data font f = .ok { f with Name := name } := by
  unfold readName
  by_cases hb : f.BitsPointer > 0
  · rw [if_pos hb]
    cases h : readUntil 0 (List.drop ((font.Start + f.BitsPointer) % 65536) data) with
    | none =>
      left
      simp only [ReadString, h]
    | some line =>
      right
      exact ⟨line.dropLast, by simp only [ReadString, h]⟩
  · rw [if_neg hb]
    exact Or.inr ⟨f.Name, rfl⟩

theorem glyph_room (gc W H i : Nat) (hi : i < gc) : i * H * W + H * W ≤ gc * W * H := by
  have h := Nat.mul_le_mul_right (H * W) (Nat.succ_le_of_lt hi)
  calc i * H * W + H * W = (i + 1) * (H * W) := by ring
    _ ≤ gc * (H * W) := h
    _ = gc * W * H := by ring

theorem decodeGlyphs_post (data : List Byte) (font : Resource) (f : Font) :
    Post (decodeGlyphs data font f)
      (fun pix => GlyphsRead data font (charLayout f.Version) f.PixHeight (glyphCount f) ∧
        Painted (blankPix f) pix
          (WrGlyphs data font (charLayout f.Version) f.PixWidth f.PixHeight (glyphCount f))) := by
  have hloop := forLoop_post
    (glyphBody data font (charLayout f.Version) f.PixWidth f.PixHeight)
    (fun i pix => GlyphsRead data font (charLayout f.Version) f.PixHeight i ∧
      Painted (blankPix f) pix
        (WrGlyphs data font (charLayout f.Version) f.PixWidth f.PixHeight i))
    (glyphCount f) 0 (blankPix f)
    ⟨fun j hj => absurd hj (Nat.not_lt_zero j),
      Painted.refl _ _ (by rintro a v ⟨j, w, off, hj, -⟩; omega)⟩
    (fun i pix _ hi hinv =>
      glyphBody_post data font (charLayout f.Version) f.PixWidth f.PixHeight
        (blankPix f) i
        (by
          unfold blankPix
          rw [List.length_replicate]
          exact glyph_room _ _ _ _ (by omega))
        pix hinv)
  rw [Nat.zero_add] at hloop
  exact hloop

theorem decodeFont_post (data : List Byte) (font : Resource) :
    Post (decodeFont data font) (Decoded data font) := by
  by_cases hlen : font.Start + 0x76 ≤ data.length
  · obtain ⟨hdr, hh, hu⟩ := readFontHeader_long data font hlen
    unfold decodeFont
    simp only [hh]
    have hcases :=
      readName_cases data font { hdr with Copyright := stringsTrimSpace hdr.Copyright }
    split
    · rename_i e hn
      rcases hcases with h | ⟨name, h⟩
      · cases h.symm.trans hn
        exact Or.inl rfl
      · cases h.symm.trans hn
    · rename_i f2 hn
      have hg := decodeGlyphs_post data font f2
      split
      · rename_i e hrun
        rw [hrun] at hg
        exact hg
      · rename_i pix hrun
        rw [hrun] at hg
        rcases hcases with h | ⟨name, h⟩
        · cases h.symm.trans hn
        · cases h.symm.trans hn
          exact ⟨hlen, ⟨hdr, hu, rfl⟩, rfl, rfl, rfl, rfl, rfl, rfl, rfl, rfl, rfl, hg.1, hg.2⟩
  · have := decodeFont_short data font (by omega)
    rw [this]
    exact Or.inl rfl

/-! ## The container walk never panics -/

theorem readEntries_error (data : List Byte) (shift rtype n pos : Nat) (acc : List Resource)
    (e : Error) (h : readEntries data shift rtype n pos acc = .error e) :
    e = .EOF ∨ e = .ErrUnexpectedEOF := by
  induction n generalizing pos acc with
  | zero => cases h
  | succ n ih =>
    unfold readEntries at h
    split at h
    · rename_i e1 h1
      cases h
      exact binaryRead_error _ _ _ _ h1
    · split at h
      · rename_i e2 h2
        cases h
        exact binaryRead_error _ _ _ _ h2
      · simp only [Nat.not_lt_zero, or_self, if_false] at h
        exact ih _ _ h

theorem binaryRead_two (data : List Byte) (pos v p : Nat)
    (h : binaryRead data pos 2 = .ok (v, p)) : pos + 2 ≤ data.length ∧ p = pos + 2 := by
  by_cases hl : pos + 2 ≤ data.length
  · rw [binaryRead_ok data pos 2 (by decide) hl] at h
    cases h
    exact ⟨hl, rfl⟩
  · exfalso
    unfold binaryRead readFull at h
    rw [if_neg (by decide)] at h
    by_cases h1 : data.length ≤ pos
    · rw [if_pos h1] at h
      cases h
    · rw [if_neg h1, if_pos (by omega)] at h
      cases h

theorem readEntries_pos (data : List Byte) (shift rtype n pos : Nat) (acc : List Resource)
    (pos2 : Nat) (acc2 : List Resource)
    (h : readEntries data shift rtype n pos acc = .ok (pos2, acc2)) : pos ≤ pos2 := by
  induction n generalizing pos acc with
  | zero => cases h; exact Nat.le_refl _
  | succ n ih =>
    unfold readEntries at h
    split at h
    · cases h
    · rename_i v1 p1 h1
      split at h
      · cases h
      · rename_i v2 p2 h2
        simp only [Nat.not_lt_zero, or_self, if_false] at h
        have hp1 := (binaryRead_two _ _ _ _ h1).2
        have hp2 := (binaryRead_two _ _ _ _ h2).2
        have := ih _ _ h
        omega

theorem readTypeBlocks_error (data : List Byte) (shift fuel pos : Nat) (acc : List Resource)
    (hfuel : data.length < pos + 2 * (fuel + 1))
    (e : Error) (h : readTypeBlocks data shift (fuel + 1) pos acc = .error e) :
    e = .EOF ∨ e = .ErrUnexpectedEOF := by
  induction fuel generalizing pos acc with
  | zero =>
    unfold readTypeBlocks at h
    split at h
    · rename_i e1 h1
      cases h
      exact binaryRead_error _ _ _ _ h1
    · rename_i v1 p1 h1
      have := (binaryRead_two _ _ _ _ h1).1
      omega
  | succ fuel ih =>
    unfold readTypeBlocks at h
    split at h
    · rename_i e1 h1
      cases h
      exact binaryRead_error _ _ _ _ h1
    · rename_i v1 p1 h1
      split at h
      · cases h
      · split at h
        · rename_i e2 h2
          cases h
          exact binaryRead_error _ _ _ _ h2
        · rename_i v2 p2 h2
          simp only at h
          split at h
          · rename_i e3 h3
            cases h
            exact readEntries_error _ _ _ _ _ _ _ h3
          · rename_i p3 acc3 h3
            have hp1 := (binaryRead_two _ _ _ _ h1).2
            have hp2 := (binaryRead_two _ _ _ _ h2).2
            have hp3 := readEntries_pos _ _ _ _ _ _ _ _ h3
            exact ih p3 acc3 (by omega) h

theorem readNEResourceTable_error (data : List Byte) (mz : MZ) (e : Error)
    (h : MZ.readNEResourceTable data mz = .error e) :
    e = .EOF ∨ e = .ErrUnexpectedEOF := by
  unfold MZ.readNEResourceTable at h
  simp only at h
  split at h
  · rename_i e1 h1
    cases h
    exact binaryRead_error _ _ _ _ h1
  · split at h
    · rename_i e2 h2
      cases h
      exact binaryRead_error _ _ _ _ h2
    · split at h
      · rename_i e3 h3
        cases h
        exact readTypeBlocks_error _ _ _ _ _ (by omega) _ h3
      · cases h

theorem identifyFileFormat_error (data : List Byte) (mz : MZ) (e : Error)
    (h : MZ.identifyFileFormat data mz = .error e) : e = .EOF := by
  unfold MZ.identifyFileFormat at h
  simp only at h
  split at h
  · rename_i e3 h3
    cases h
    unfold Read at h3
    split at h3
    · cases h3; rfl
    · cases h3
  · split at h
    · cases h
    · split at h <;> cases h

theorem ReadMZ_error (data : List Byte) (e : Error) (h : ReadMZ data = .error e) :
    e = .EOF ∨ e = .ErrUnexpectedEOF ∨ e = .ErrNoMZFile ∨
      ∃ f, f ≠ fileFormat.ne ∧ e = .unsupportedFormat f := by
  by_cases hlen : 64 ≤ data.length
  · obtain ⟨mz, -, -, -, -, hr⟩ := readHeader_long data MZ.zero hlen
    unfold ReadMZ at h
    by_cases hsig : mz.Signature ≠ fileIdentifier
    · rw [hr, if_pos hsig] at h
      cases h
      exact Or.inr (Or.inr (Or.inl rfl))
    · rw [hr, if_neg hsig] at h
      simp only at h
      split at h
      · rename_i e2 h2
        cases h
        exact Or.inl (identifyFileFormat_error _ _ _ h2)
      · split at h
        · rename_i hfmt
          cases h
          exact Or.inr (Or.inr (Or.inr ⟨_, hfmt, rfl⟩))
        · split at h
          · rename_i e4 h4
            cases h
            rcases readNEResourceTable_error _ _ _ h4 with h | h
            · exact Or.inl h
            · exact Or.inr (Or.inl h)
          · cases h
  · rw [ReadMZ_short data (by omega)] at h
    cases h
    exact Or.inl rfl

theorem ReadMZ_no_panic (data : List Byte) : ReadMZ data ≠ .error .indexOutOfRange := by
  intro h
  rcases ReadMZ_error data _ h with h | h | h | ⟨f, -, h⟩ <;> cases h

/-! ## All font resources -/

theorem decodeFonts_post (data : List Byte) (rs : List Resource) :
    Post (decodeFonts data rs)
      (fun fs => List.Forall₂ (fun r f => decodeFont data r = .ok f) rs fs) := by
  induction rs with
  | nil => exact List.Forall₂.nil
  | cons r rest ih =>
    unfold decodeFonts
    have hd := decodeFont_post data r
    split
    · rename_i e he
      rw [he] at hd
      exact hd
    · rename_i f hf
      split
      · rename_i e he
        rw [he] at ih
        exact ih
      · rename_i fs hfs
        rw [hfs] at ih
        exact List.Forall₂.cons hf ih

theorem ReadFonts_error (data : List Byte) (e : Error) (h : ReadFonts data = .error e) :
    e = .EOF ∨ e = .ErrUnexpectedEOF ∨ e = .ErrNoMZFile ∨
      ∃ f, f ≠ fileFormat.ne ∧ e = .unsupportedFormat f := by
  unfold ReadFonts at h
  split at h
  · rename_i e1 he
    cases h
    exact ReadMZ_error data _ he
  · rcases Post_error (decodeFonts_post data _) h with h | h
    · exact Or.inl h
    · exact Or.inr (Or.inl h)

theorem ReadFonts_no_panic (data : List Byte) : ReadFonts data ≠ .error .indexOutOfRange := by
  intro h
  rcases ReadFonts_error data _ h with h | h | h | ⟨f, -, h⟩ <;> cases h

theorem ReadFonts_ok (data : List Byte) (fonts : List Font) (h : ReadFonts data = .ok fonts) :
    ∃ mz, ReadMZ data = .ok mz ∧
      List.Forall₂ (fun r f => decodeFont data r = .ok f) (mz.Resources fontType) fonts := by
  unfold ReadFonts at h
  split at h
  · cases h
  · rename_i mz hmz
    exact ⟨mz, hmz, Post_ok (decodeFonts_post data _) h⟩

theorem Forall₂_index {α β : Type} {R : α → β → Prop} {l1 : List α} {l2 : List β}
    (h : List.Forall₂ R l1 l2) (n : Nat) (hn : n < l2.length) :
    ∃ a b, l1[n]? = some a ∧ l2[n]? = some b ∧ R a b := by
  induction h generalizing n with
  | nil => cases hn
  | cons hab _ ih =>
    cases n with
    | zero => exact ⟨_, _, by simp, by simp, hab⟩
    | succ n =>
      obtain ⟨a, b, h1, h2, h3⟩ := ih n (by simpa using hn)
      exact ⟨a, b, by simpa using h1, by simpa using h2, h3⟩

theorem decodeFont_Decoded (data : List Byte) (font : Resource) (f : Font)
    (h : decodeFont data font = .ok f) : Decoded data font f :=
  Post_ok (decodeFont_post data font) h

theorem ReadFonts_index (data : List Byte) (fonts : List Font) (h : ReadFonts data = .ok fonts)
    (n : Nat) (hn : n < fonts.length) :
    ∃ mz res f, ReadMZ data = .ok mz ∧ (mz.Resources fontType)[n]? = some res ∧
      fonts[n]? = some f ∧ decodeFont data res = .ok f := by
  obtain ⟨mz, hmz, hall⟩ := ReadFonts_ok data fonts h
  obtain ⟨res, f, h1, h2, h3⟩ := Forall₂_index hall n hn
  exact ⟨mz, res, f, hmz, h1, h2, h3⟩

set_option maxRecDepth 1000000 in
theorem ink_shiftN (b : Byte) (k : Fin 8) :
    ink (shiftN k.val b.val) = if b.val.testBit (7 - k.val) then 0xff else 0x00 := by
  revert b k
  decide

/-! ## Facts about a decoded font -/

theorem leValue_lt (bs : List Byte) : leValue bs < 256 ^ bs.length := by
  induction bs with
  | nil => simp [leValue]
  | cons b bs ih =>
    simp only [leValue, List.length_cons, pow_succ]
    have := b.isLt
    omega

theorem fieldAt_one_lt (data : List Byte) (off : Nat) : fieldAt data off 1 < 256 := by
  have h := leValue_lt (bytesAt data off 1)
  have hl : (bytesAt data off 1).length ≤ 1 := by
    unfold bytesAt; rw [List.length_take]; omega
  have hp : 256 ^ (bytesAt data off 1).length ≤ 256 ^ 1 :=
    Nat.pow_le_pow_right (by decide) hl
  unfold fieldAt
  omega

theorem unpackFont_fields (buf : List Byte) (h : buf.length = 118) :
    Font.Unpack buf = .ok
      { Version := fieldAt buf 0x00 2, Size := fieldAt buf 0x02 4,
        Copyright := bytesAt buf 0x06 60, Type_ := fieldAt buf 0x42 2,
        Points := fieldAt buf 0x44 2, VertRes := fieldAt buf 0x46 2,
        HorizRes := fieldAt buf 0x48 2, Ascent := fieldAt buf 0x4A 2,
        InternalLeading := fieldAt buf 0x4C 2, ExternalLeading := fieldAt buf 0x4E 2,
        Italic := decide (fieldAt buf 0x50 1 ≠ 0), Underline := decide (fieldAt buf 0x51 1 ≠ 0),
        StrikeOut := decide (fieldAt buf 0x52 1 ≠ 0), Weight := fieldAt buf 0x53 2,
        CharSet := fieldAt buf 0x55 1, PixWidth := fieldAt buf 0x56 2,
        PixHeight := fieldAt buf 0x58 2, PitchAndFamily := fieldAt buf 0x5A 1,
        AvgWidth := fieldAt buf 0x5B 2, MaxWidth := fieldAt buf 0x5D 2,
        FirstChar := fieldAt buf 0x5F 1, LastChar := fieldAt buf 0x60 1,
        DefaultChar := fieldAt buf 0x61 1, BreakChar := fieldAt buf 0x62 1,
        WidthBytes := fieldAt buf 0x63 2, Device := fieldAt buf 0x65 2,
        FaceData := fieldAt buf 0x67 2, BitsPointer := fieldAt buf 0x69 2,
        BitsOffset := fieldAt buf 0x6B 2, Reserved := fieldAt buf 0x6D 1,
        Name := [], Face := Face.zero } := by
  simp [Font.Unpack, unpackUint_ok, unpackBytes_ok, unpackBool_ok, h, bind, Except.bind,
    pure, Except.pure, fieldAt, bytesAt]

theorem Decoded_char_range (data : List Byte) (font : Resource) (f : Font)
    (hd : Decoded data font f) : f.FirstChar < 256 ∧ f.LastChar < 256 := by
  obtain ⟨hlen, ⟨hdr, hu, hf⟩, -⟩ := hd
  have hl : (bytesAt data font.Start 0x76).length = 118 := by
    unfold bytesAt; rw [List.length_take, List.length_drop]; omega
  rw [unpackFont_fields _ hl] at hu
  cases hu
  rw [hf]
  exact ⟨fieldAt_one_lt _ _, fieldAt_one_lt _ _⟩

theorem glyphCount_of_le (f : Font) (hl : f.LastChar < 256) (hle : f.FirstChar ≤ f.LastChar) :
    glyphCount f = f.LastChar - f.FirstChar := by
  unfold glyphCount
  omega

theorem ink_cases (b : Nat) : ink b = 0x00 ∨ ink b = 0xff := by
  unfold ink
  split
  · exact Or.inr rfl
  · exact Or.inl rfl

theorem WrGlyphs_coords (data : List Byte) (font char : Resource) (W H n a : Nat) (v : Byte)
    (h : WrGlyphs data font char W H n a v) :
    ∃ j r x, j < n ∧ r < H ∧ x < W ∧ a = j * H * W + r * W + x ∧ (v = 0x00 ∨ v = 0xff) := by
  obtain ⟨j, w, off, hj, -, c, r, k, -, hr, -, hkw, b, -, ha, hv⟩ := h
  exact ⟨j, r, k + c * 8, hj, hr, hkw, by omega, by rw [hv]; exact ink_cases _⟩

theorem Decoded_length (data : List Byte) (font : Resource) (f : Font)
    (hd : Decoded data font f) :
    f.Face.Mask.Pix.length = glyphCount f * f.PixWidth * f.PixHeight := by
  have hp := hd.2.2.2.2.2.2.2.2.2.2.2.2
  rw [hp.1, blankPix, List.length_replicate]

theorem Decoded_allInk (data : List Byte) (font : Resource) (f : Font)
    (hd : Decoded data font f) : ∀ x ∈ f.Face.Mask.Pix, x = 0x00 ∨ x = 0xff := by
  have hp := hd.2.2.2.2.2.2.2.2.2.2.2.2
  intro x hx
  obtain ⟨a, ha⟩ := List.mem_iff_getElem?.mp hx
  by_cases hw : ∃ v, WrGlyphs data font (charLayout f.Version) f.PixWidth f.PixHeight
      (glyphCount f) a v
  · obtain ⟨v, hv⟩ := hw
    have := hp.2.2 a v hv
    rw [ha] at this
    cases this
    obtain ⟨_, _, _, _, _, _, _, hink⟩ := WrGlyphs_coords _ _ _ _ _ _ _ _ hv
    exact hink
  · have := hp.2.1 a (fun v hv => hw ⟨v, hv⟩)
    rw [ha, blankPix] at this
    have hmem : x ∈ List.replicate (glyphCount f * f.PixWidth * f.PixHeight) (0 : Byte) :=
      List.mem_iff_getElem?.mpr ⟨a, this.symm⟩
    exact Or.inl (List.eq_of_mem_replicate hmem)

theorem Decoded_pixel (data : List Byte) (font : Resource) (f : Font)
    (hd : Decoded data font f) (i : Nat) (hi : i < glyphCount f) :
    ∃ width offset, readCharEntry data font (charLayout f.Version) i = .ok (width, offset) ∧
      ∀ c r k, c < columnsPerRow width → r < f.PixHeight → k < 8 → c * 8 + k < f.PixWidth →
        ∃ b : Byte, data[font.Start + offset + c * f.PixHeight + r]? = some b ∧
          f.Face.Mask.Pix[(i * f.PixHeight + r) * f.PixWidth + c * 8 + k]?
            = some (if b.val.testBit (7 - k) then 0xff else 0x00) := by
  have hfed := hd.2.2.2.2.2.2.2.2.2.2.2.1
  have hp := hd.2.2.2.2.2.2.2.2.2.2.2.2
  obtain ⟨width, offset, hent, hcols⟩ := hfed i hi
  refine ⟨width, offset, hent, fun c r k hc hr hk hkw => ?_⟩
  have hlt := hcols c r hc hr
  refine ⟨data[font.Start + offset + c * f.PixHeight + r], List.getElem?_eq_getElem hlt, ?_⟩
  have haddr : (i * f.PixHeight + r) * f.PixWidth + c * 8 + k
      = i * f.PixHeight * f.PixWidth + r * f.PixWidth + k + c * 8 := by ring
  rw [haddr, ← ink_shiftN _ ⟨k, hk⟩]
  exact hp.2.2 _ _ ⟨i, width, offset, hi, hent, c, r, k, hc, hr, hk, by omega, _,
    List.getElem?_eq_getElem hlt, rfl, rfl⟩

/-! ## Header fields read from the stream -/

theorem bytesAt_bytesAt (data : List Byte) (s m off n : Nat) (h : off + n ≤ m) :
    bytesAt (bytesAt data s m) off n = bytesAt data (s + off) n := by
  unfold bytesAt
  rw [List.drop_take, List.take_take, List.drop_drop, Nat.min_eq_left (by omega)]

theorem fieldAt_bytesAt (data : List Byte) (s m off n : Nat) (h : off + n ≤ m) :
    fieldAt (bytesAt data s m) off n = fieldAt data (s + off) n := by
  unfold fieldAt
  rw [bytesAt_bytesAt data s m off n h]

theorem fieldAt_two (data : List Byte) (off : Nat) (b0 b1 : Byte)
    (h0 : data[off]? = some b0) (h1 : data[off + 1]? = some b1) :
    fieldAt data off 2 = b0.val + 256 * b1.val := by
  have hl1 : off + 1 < data.length := (List.getElem?_eq_some.mp h1).1
  have e0 : data[off] = b0 := by
    rw [List.getElem?_eq_getElem (by omega : off < data.length)] at h0
    exact Option.some.inj h0
  have e1 : data[off + 1] = b1 := by
    rw [List.getElem?_eq_getElem hl1] at h1
    exact Option.some.inj h1
  unfold fieldAt bytesAt
  rw [List.drop_eq_getElem_cons (by omega : off < data.length),
    List.drop_eq_getElem_cons hl1]
  simp [leValue, e0, e1]

theorem fieldAt_four (data : List Byte) (off : Nat) (b0 b1 b2 b3 : Byte)
    (h0 : data[off]? = some b0) (h1 : data[off + 1]? = some b1)
    (h2 : data[off + 2]? = some b2) (h3 : data[off + 3]? = some b3) :
    fieldAt data off 4 = b0.val + 256 * b1.val + 65536 * b2.val + 16777216 * b3.val := by
  have hl3 : off + 3 < data.length := (List.getElem?_eq_some.mp h3).1
  have e0 : data[off] = b0 := by
    rw [List.getElem?_eq_getElem (by omega : off < data.length)] at h0
    exact Option.some.inj h0
  have e1 : data[off + 1] = b1 := by
    rw [List.getElem?_eq_getElem (by omega : off + 1 < data.length)] at h1
    exact Option.some.inj h1
  have e2 : data[off + 2] = b2 := by
    rw [List.getElem?_eq_getElem (by omega : off + 2 < data.length)] at h2
    exact Option.some.inj h2
  have e3 : data[off + 3] = b3 := by
    rw [List.getElem?_eq_getElem hl3] at h3
    exact Option.some.inj h3
  unfold fieldAt bytesAt
  rw [List.drop_eq_getElem_cons (by omega : off < data.length),
    List.drop_eq_getElem_cons (by omega : off + 1 < data.length),
    List.drop_eq_getElem_cons (by omega : off + 1 + 1 < data.length),
    List.drop_eq_getElem_cons (by omega : off + 1 + 1 + 1 < data.length)]
  simp only [List.take_succ_cons, List.take_zero, leValue, e0, e1]
  have e2b : data[off + 1 + 1] = b2 := e2
  have e3b : data[off + 1 + 1 + 1] = b3 := e3
  rw [e2b, e3b]
  omega

theorem binaryRead_inv (data : List Byte) (pos n v p : Nat) (hn : 0 < n)
    (h : binaryRead data pos n = .ok (v, p)) :
    pos + n ≤ data.length ∧ p = pos + n ∧ v = fieldAt data pos n := by
  by_cases hl : pos + n ≤ data.length
  · rw [binaryRead_ok data pos n hn hl] at h
    cases h
    exact ⟨hl, rfl, rfl⟩
  · exfalso
    unfold binaryRead readFull at h
    rw [if_neg (by omega)] at h
    by_cases h1 : data.length ≤ pos
    · rw [if_pos h1] at h
      cases h
    · rw [if_neg h1, if_pos (by omega)] at h
      cases h

theorem readFontHeader_fields (data : List Byte) (font : Resource)
    (h : font.Start + 0x76 ≤ data.length) :
    readFontHeader data font = .ok
      { Version := fieldAt data (font.Start + 0x00) 2, Size := fieldAt data (font.Start + 0x02) 4,
        Copyright := bytesAt data (font.Start + 0x06) 60,
        Type_ := fieldAt data (font.Start + 0x42) 2,
        Points := fieldAt data (font.Start + 0x44) 2,
        VertRes := fieldAt data (font.Start + 0x46) 2,
        HorizRes := fieldAt data (font.Start + 0x48) 2,
        Ascent := fieldAt data (font.Start + 0x4A) 2,
        InternalLeading := fieldAt data (font.Start + 0x4C) 2,
        ExternalLeading := fieldAt data (font.Start + 0x4E) 2,
        Italic := decide (fieldAt data (font.Start + 0x50) 1 ≠ 0),
        Underline := decide (fieldAt data (font.Start + 0x51) 1 ≠ 0),
        StrikeOut := decide (fieldAt data (font.Start + 0x52) 1 ≠ 0),
        Weight := fieldAt data (font.Start + 0x53) 2,
        CharSet := fieldAt data (font.Start + 0x55) 1,
        PixWidth := fieldAt data (font.Start + 0x56) 2,
        PixHeight := fieldAt data (font.Start + 0x58) 2,
        PitchAndFamily := fieldAt data (font.Start + 0x5A) 1,
        AvgWidth := fieldAt data (font.Start + 0x5B) 2,
        MaxWidth := fieldAt data (font.Start + 0x5D) 2,
        FirstChar := fieldAt data (font.Start + 0x5F) 1,
        LastChar := fieldAt data (font.Start + 0x60) 1,
        DefaultChar := fieldAt data (font.Start + 0x61) 1,
        BreakChar := fieldAt data (font.Start + 0x62) 1,
        WidthBytes := fieldAt data (font.Start + 0x63) 2,
        Device := fieldAt data (font.Start + 0x65) 2,
        FaceData := fieldAt data (font.Start + 0x67) 2,
        BitsPointer := fieldAt data (font.Start + 0x69) 2,
        BitsOffset := fieldAt data (font.Start + 0x6B) 2,
        Reserved := fieldAt data (font.Start + 0x6D) 1,
        Name := [], Face := Face.zero } := by
  obtain ⟨hdr, hh, hu⟩ := readFontHeader_long data font h
  have hl : (bytesAt data font.Start 0x76).length = 118 := by
    unfold bytesAt; rw [List.length_take, List.length_drop]; omega
  rw [unpackFont_fields _ hl] at hu
  rw [hh, ← hu]
  simp (disch := omega) only [fieldAt_bytesAt, bytesAt_bytesAt]

/-! ## Trimming -/

theorem trimLeftByte_spec (c : Byte) (s : List Byte) :
    (∃ n, s = List.replicate n c ++ trimLeftByte c s) ∧ (trimLeftByte c s).head? ≠ some c := by
  induction s with
  | nil => exact ⟨⟨0, rfl⟩, by simp [trimLeftByte]⟩
  | cons b bs ih =>
    unfold trimLeftByte
    by_cases hb : b = c
    · rw [if_pos hb]
      obtain ⟨⟨n, hn⟩, hh⟩ := ih
      refine ⟨⟨n + 1, ?_⟩, hh⟩
      rw [List.replicate_succ, List.cons_append, ← hn, hb]
    · rw [if_neg hb]
      refine ⟨⟨0, rfl⟩, ?_⟩
      simpa using hb

theorem trimRightByte_spec (c : Byte) (s : List Byte) :
    (∃ m, s = trimRightByte c s ++ List.replicate m c) ∧
      (trimRightByte c s).getLast? ≠ some c := by
  obtain ⟨⟨m, hm⟩, hh⟩ := trimLeftByte_spec c s.reverse
  unfold trimRightByte
  refine ⟨⟨m, ?_⟩, ?_⟩
  · have := congrArg List.reverse hm
    rw [List.reverse_reverse, List.reverse_append, List.reverse_replicate] at this
    exact this
  · rw [List.getLast?_reverse]
    exact hh

theorem stringsTrimSpace_spec (s : List Byte) :
    (∃ n m, s = List.replicate n 0x20 ++ stringsTrimSpace s ++ List.replicate m 0x20) ∧
      (stringsTrimSpace s).head? ≠ some 0x20 ∧ (stringsTrimSpace s).getLast? ≠ some 0x20 := by
  obtain ⟨⟨m, hm⟩, hlast⟩ := trimRightByte_spec 0x20 s
  obtain ⟨⟨n, hn⟩, hhead⟩ := trimLeftByte_spec 0x20 (trimRightByte 0x20 s)
  unfold stringsTrimSpace
  refine ⟨⟨n, m, ?_⟩, hhead, ?_⟩
  · rw [← hn, ← hm]
  · intro hl
    apply hlast
    rw [hn]
    cases hu : trimLeftByte 0x20 (trimRightByte 0x20 s) with
    | nil => rw [hu] at hl; simp at hl
    | cons x xs =>
      rw [hu] at hl
      rw [List.getLast?_append_of_ne_nil _ (by simp)]
      exact hl

/-! ## The font name -/

theorem readUntil_some (d : Byte) (l line : List Byte) (h : readUntil d l = some line) :
    ∃ name rest, line = name ++ [d] ∧ d ∉ name ∧ l = name ++ d :: rest := by
  induction l generalizing line with
  | nil => cases h
  | cons b bs ih =>
    unfold readUntil at h
    by_cases hb : b = d
    · rw [if_pos hb] at h
      cases h
      exact ⟨[], bs, by rw [hb]; rfl, by simp, by rw [hb]; rfl⟩
    · rw [if_neg hb] at h
      cases hr : readUntil d bs with
      | none => rw [hr] at h; cases h
      | some line2 =>
        rw [hr] at h
        cases h
        obtain ⟨name, rest, h1, h2, h3⟩ := ih line2 hr
        refine ⟨b :: name, rest, by rw [h1]; rfl, ?_, by rw [h3]; rfl⟩
        intro hm
        rcases List.mem_cons.mp hm with h | h
        · exact hb h.symm
        · exact h2 h

theorem readUntil_none (d : Byte) (l : List Byte) (h : d ∉ l) : readUntil d l = none := by
  induction l with
  | nil => rfl
  | cons b bs ih =>
    unfold readUntil
    rw [if_neg (fun e => h (by rw [e]; exact List.mem_cons_self _ _)),
      ih (fun hm => h (List.mem_cons_of_mem _ hm))]

theorem readName_ok (data : List Byte) (font : Resource) (f f2 : Font)
    (h : readName data font f = .ok f2) :
    f2 = { f with Name := f2.Name } ∧
    (f.BitsPointer = 0 → f2.Name = f.Name) ∧
    (f.BitsPointer > 0 → (0 : Byte) ∉ f2.Name ∧
      ∃ rest, data.drop ((font.Start + f.BitsPointer) % 65536) = f2.Name ++ 0 :: rest) := by
  unfold readName at h
  by_cases hb : f.BitsPointer > 0
  · rw [if_pos hb] at h
    simp only [ReadString] at h
    cases hr : readUntil 0 (List.drop ((font.Start + f.BitsPointer) % 65536) data) with
    | none => simp only [hr] at h; cases h
    | some line =>
      simp only [hr] at h
      cases h
      obtain ⟨name, rest, h1, h2, h3⟩ := readUntil_some _ _ _ hr
      have hname : line.dropLast = name := by rw [h1]; simp
      refine ⟨rfl, fun h0 => absurd hb (by omega), fun _ => ?_⟩
      simp only [hname]
      exact ⟨h2, rest, h3⟩
  · rw [if_neg hb] at h
    cases h
    exact ⟨rfl, fun _ => rfl, fun h0 => absurd h0 hb⟩

theorem readName_fail (data : List Byte) (font : Resource) (f : Font) (hb : f.BitsPointer > 0)
    (h : (0 : Byte) ∉ data.drop ((font.Start + f.BitsPointer) % 65536)) :
    readName data font f = .error .EOF := by
  unfold readName
  rw [if_pos hb]
  simp only [ReadString, readUntil_none _ _ h]

theorem decodeFont_inv (data : List Byte) (font : Resource) (f : Font)
    (h : decodeFont data font = .ok f) :
    ∃ hdr f2 pix, readFontHeader data font = .ok hdr ∧
      readName data font (withTrimmedCopyright hdr) = .ok f2 ∧
      decodeGlyphs data font f2 = .ok pix ∧ f = { f2 with Face := fontFace f2 pix } := by
  unfold decodeFont at h
  split at h
  · cases h
  · rename_i hdr hh
    simp only at h
    split at h
    · cases h
    · rename_i f2 hn
      split at h
      · cases h
      · rename_i pix hg
        cases h
        exact ⟨hdr, f2, pix, hh, hn, hg, rfl⟩

theorem decodeFonts_fail (data : List Byte) (rs : List Resource) (font : Resource) (e : Error)
    (hm : font ∈ rs) (h : decodeFont data font = .error e) :
    ∃ e2, decodeFonts data rs = .error e2 := by
  induction rs with
  | nil => cases hm
  | cons r rest ih =>
    unfold decodeFonts
    rcases List.mem_cons.mp hm with heq | hmem
    · rw [← heq, h]
      exact ⟨e, rfl⟩
    · cases hd : decodeFont data r with
      | error e1 => exact ⟨e1, rfl⟩
      | ok f =>
        obtain ⟨e2, he2⟩ := ih hmem
        simp only [he2]
        exact ⟨e2, rfl⟩

theorem ReadFonts_fail (data : List Byte) (mz : MZ) (font : Resource) (e : Error)
    (hmz : ReadMZ data = .ok mz) (hm : font ∈ mz.Resources fontType)
    (h : decodeFont data font = .error e) : ∃ e2, ReadFonts data = .error e2 := by
  unfold ReadFonts
  simp only [hmz]
  exact decodeFonts_fail data _ font e hm h

/-! ## Glyphs of width zero -/

theorem columnsPerRow_zero : columnsPerRow 0 = 0 := by decide

theorem region_not_written (data : List Byte) (font char : Resource) (W H n i a : Nat)
    (offset : Nat) (hent : readCharEntry data font char i = .ok (0, offset))
    (hlo : i * H * W ≤ a) (hhi : a < (i + 1) * H * W) (v : Byte) :
    ¬ WrGlyphs data font char W H n a v := by
  rintro ⟨j, w, off, -, hj, c, r, k, hc, hr, -, hkw, -, -, ha, -⟩
  have hrow := Nat.mul_le_mul_right W (Nat.succ_le_of_lt hr)
  rw [Nat.succ_mul] at hrow
  rw [Nat.mul_assoc] at hlo hhi
  rw [Nat.mul_assoc] at ha
  rcases Nat.lt_trichotomy j i with hlt | heq | hgt
  · have := Nat.mul_le_mul_right (H * W) (Nat.succ_le_of_lt hlt)
    rw [Nat.succ_mul] at this
    omega
  · subst heq
    rw [hent] at hj
    cases hj
    rw [columnsPerRow_zero] at hc
    omega
  · have := Nat.mul_le_mul_right (H * W) (Nat.succ_le_of_lt hgt)
    rw [Nat.succ_mul] at this hhi
    omega

theorem Decoded_zero_width (data : List Byte) (font : Resource) (f : Font)
    (hd : Decoded data font f) (i offset : Nat) (hi : i < glyphCount f)
    (hent : readCharEntry data font (charLayout f.Version) i = .ok (0, offset)) (a : Nat)
    (hlo : i * f.PixHeight * f.PixWidth ≤ a) (hhi : a < (i + 1) * f.PixHeight * f.PixWidth) :
    f.Face.Mask.Pix[a]? = some 0 := by
  have hp := hd.2.2.2.2.2.2.2.2.2.2.2.2
  rw [hp.2.1 a (fun v => region_not_written data font _ _ _ _ i a offset hent hlo hhi v),
    blankPix]
  have hroom := glyph_room (glyphCount f) f.PixWidth f.PixHeight i hi
  have : a < glyphCount f * f.PixWidth * f.PixHeight := by
    rw [Nat.succ_mul, Nat.add_mul] at hhi
    omega
  simp [List.getElem?_replicate, this]

theorem glyphBody_zero_width (data : List Byte) (font char : Resource) (W H i offset : Nat)
    (pix : List Byte) (hent : readCharEntry data font char i = .ok (0, offset)) :
    glyphBody data font char W H i pix = .ok pix := by
  unfold glyphBody
  simp only [hent, columnsPerRow_zero, forLoop]

/-! ## The resource table -/

theorem specEntries_succ (data : List Byte) (shift tag base n : Nat) :
    specEntries data shift tag base (n + 1)
      = { Start := (fieldAt data base 2 <<< shift) % 65536,
          Size := (fieldAt data (base + 2) 2 <<< shift) % 65536, Type_ := tag }
        :: specEntries data shift tag (base + 12) n := by
  unfold specEntries
  rw [List.range_succ_eq_map, List.map_cons, List.map_map]
  congr 1
  apply List.map_congr_left
  intro i _
  simp only [Function.comp, Nat.succ_eq_add_one]
  rw [show base + 12 * (i + 1) = base + 12 + 12 * i by ring]

theorem specEntries_length (data : List Byte) (shift tag base n : Nat) :
    (specEntries data shift tag base n).length = n := by
  simp [specEntries]

theorem specEntries_type (data : List Byte) (shift tag base n : Nat) (r : Resource)
    (h : r ∈ specEntries data shift tag base n) : r.Type_ = tag := by
  unfold specEntries at h
  obtain ⟨i, -, hi⟩ := List.mem_map.mp h
  rw [← hi]

theorem readEntries_spec (data : List Byte) (shift tag n pos : Nat) (acc : List Resource)
    (p : Nat) (acc2 : List Resource)
    (h : readEntries data shift tag n pos acc = .ok (p, acc2)) :
    p = pos + 12 * n ∧ acc2 = acc ++ specEntries data shift tag pos n := by
  induction n generalizing pos acc with
  | zero =>
    cases h
    exact ⟨rfl, by simp [specEntries]⟩
  | succ n ih =>
    unfold readEntries at h
    split at h
    · cases h
    · rename_i v1 p1 h1
      split at h
      · cases h
      · rename_i v2 p2 h2
        simp only [Nat.not_lt_zero, or_self, if_false] at h
        obtain ⟨-, hp1, hv1⟩ := binaryRead_inv _ _ _ _ _ (by decide) h1
        obtain ⟨-, hp2, hv2⟩ := binaryRead_inv _ _ _ _ _ (by decide) h2
        obtain ⟨hp, hacc⟩ := ih _ _ h
        subst hp1 hp2 hv1 hv2
        refine ⟨by omega, ?_⟩
        rw [hacc, specEntries_succ, List.append_assoc]
        rw [show pos + 2 + 2 + 8 = pos + 12 by omega]
        rfl

theorem binaryRead_field (data : List Byte) (pos n : Nat) (hn : 0 < n)
    (h : pos + n ≤ data.length) :
    binaryRead data pos n = .ok (fieldAt data pos n, pos + n) :=
  binaryRead_ok data pos n hn h

theorem readEntries_run (data : List Byte) (shift tag n pos : Nat) (acc : List Resource)
    (h : pos + 12 * n ≤ data.length) :
    readEntries data shift tag n pos acc
      = .ok (pos + 12 * n, acc ++ specEntries data shift tag pos n) := by
  induction n generalizing pos acc with
  | zero => simp [readEntries, specEntries]
  | succ n ih =>
    unfold readEntries
    rw [binaryRead_field data pos 2 (by decide) (by omega)]
    simp only
    rw [binaryRead_field data (pos + 2) 2 (by decide) (by omega)]
    simp only [Nat.not_lt_zero, or_self, if_false]
    rw [show pos + 2 + 2 + 8 = pos + 12 by omega, ih (pos + 12) _ (by omega),
      specEntries_succ, List.append_assoc]
    rw [show pos + 12 + 12 * n = pos + 12 * (n + 1) by omega]
    rfl

theorem Table.bounds {data : List Byte} {shift pos : Nat} {rs : List Resource} {endPos : Nat}
    (h : Table data shift pos rs endPos) : pos + 2 ≤ endPos ∧ endPos ≤ data.length := by
  induction h with
  | done pos hlen htag => exact ⟨Nat.le_refl _, hlen⟩
  | block pos rest endPos hlen htag hrest ih => exact ⟨by omega, ih.2⟩

theorem readTypeBlocks_Table (data : List Byte) (shift fuel pos : Nat)
    (acc res : List Resource) (h : readTypeBlocks data shift fuel pos acc = .ok res) :
    ∃ rest endPos, Table data shift pos rest endPos ∧ res = acc ++ rest := by
  induction fuel generalizing pos acc with
  | zero => cases h
  | succ fuel ih =>
    unfold readTypeBlocks at h
    split at h
    · cases h
    · rename_i v1 p1 h1
      obtain ⟨hl1, hp1, hv1⟩ := binaryRead_inv _ _ _ _ _ (by decide) h1
      split at h
      · rename_i hz
        cases h
        exact ⟨[], pos + 2, Table.done pos hl1 (by rw [← hv1]; exact hz), by simp⟩
      · rename_i hnz
        split at h
        · cases h
        · rename_i v2 p2 h2
          obtain ⟨hl2, hp2, hv2⟩ := binaryRead_inv _ _ _ _ _ (by decide) h2
          simp only at h
          split at h
          · cases h
          · rename_i p3 acc3 h3
            obtain ⟨hp3, hacc3⟩ := readEntries_spec _ _ _ _ _ _ _ _ h3
            obtain ⟨rest, endPos, htab, hres⟩ := ih _ _ h
            subst hp1 hp2 hv1 hv2 hp3
            rw [show pos + 2 + 2 + 4 + 12 * fieldAt data (pos + 2) 2
                = pos + 8 + 12 * fieldAt data (pos + 2) 2 by omega] at htab
            rw [show pos + 2 + 2 + 4 = pos + 8 by omega] at hacc3
            refine ⟨_, endPos, Table.block pos rest endPos (by omega) hnz htab, ?_⟩
            rw [hres, hacc3, List.append_assoc]

theorem Table_readTypeBlocks (data : List Byte) (shift pos : Nat) (rest : List Resource)
    (endPos : Nat) (h : Table data shift pos rest endPos) :
    ∀ fuel acc, endPos ≤ pos + 2 + 8 * fuel →
      readTypeBlocks data shift (fuel + 1) pos acc = .ok (acc ++ rest) := by
  induction h with
  | done pos hlen htag =>
    intro fuel acc _
    unfold readTypeBlocks
    rw [binaryRead_field data pos 2 (by decide) hlen]
    simp only
    rw [if_pos htag]
    simp
  | block pos rest endPos hlen htag hrest ih =>
    intro fuel acc hfuel
    have hb := hrest.bounds
    cases fuel with
    | zero => omega
    | succ fuel =>
      unfold readTypeBlocks
      rw [binaryRead_field data pos 2 (by decide) (by omega)]
      simp only
      rw [if_neg htag, binaryRead_field data (pos + 2) 2 (by decide) (by omega)]
      simp only
      rw [show pos + 2 + 2 + 4 = pos + 8 by omega,
        readEntries_run data shift _ _ (pos + 8) acc (by omega)]
      simp only
      rw [ih fuel _ (by omega), List.append_assoc]

theorem bytesAt_of_take (data data2 : List Byte) (E p n : Nat)
    (h : data2.take E = data.take E) (hp : p + n ≤ E) :
    bytesAt data2 p n = bytesAt data p n := by
  have key : ∀ d : List Byte, bytesAt d p n = ((d.take E).drop p).take n := by
    intro d
    unfold bytesAt
    rw [List.drop_take, List.take_take, Nat.min_eq_left (by omega)]
  rw [key data2, key data, h]

theorem fieldAt_of_take (data data2 : List Byte) (E p n : Nat)
    (h : data2.take E = data.take E) (hp : p + n ≤ E) :
    fieldAt data2 p n = fieldAt data p n := by
  unfold fieldAt
  rw [bytesAt_of_take data data2 E p n h hp]

theorem specEntries_of_take (data data2 : List Byte) (E shift tag base n : Nat)
    (h : data2.take E = data.take E) (hp : base + 12 * n ≤ E) :
    specEntries data2 shift tag base n = specEntries data shift tag base n := by
  unfold specEntries
  apply List.map_congr_left
  intro i hi
  have hi2 := List.mem_range.mp hi
  rw [fieldAt_of_take data data2 E _ 2 h (by omega),
    fieldAt_of_take data data2 E _ 2 h (by omega)]

theorem Table_of_take (data data2 : List Byte) (shift pos : Nat) (rest : List Resource)
    (endPos : Nat) (h : Table data shift pos rest endPos)
    (hagree : data2.take endPos = data.take endPos) : Table data2 shift pos rest endPos := by
  have hlen2 : endPos ≤ data2.length := by
    have h1 := congrArg List.length hagree
    rw [List.length_take, List.length_take] at h1
    have := h.bounds.2
    omega
  induction h with
  | done pos hlen htag =>
    exact Table.done pos hlen2 (by rw [fieldAt_of_take data data2 _ pos 2 hagree (by omega)]; exact htag)
  | block pos rest endPos hlen htag hrest ih =>
    have hb := hrest.bounds
    have ht : fieldAt data2 pos 2 = fieldAt data pos 2 :=
      fieldAt_of_take data data2 _ pos 2 hagree (by omega)
    have hc : fieldAt data2 (pos + 2) 2 = fieldAt data (pos + 2) 2 :=
      fieldAt_of_take data data2 _ (pos + 2) 2 hagree (by omega)
    have hrest2 := ih hagree hlen2
    rw [← hc] at hrest2
    have hnew := Table.block pos rest endPos (by omega : pos + 4 ≤ data2.length)
      (by rw [ht]; exact htag) hrest2
    rw [ht, hc, specEntries_of_take data data2 endPos shift _ (pos + 8) _ hagree (by omega)]
      at hnew
    exact hnew

/-! ## A successful container parse -/

theorem readNEResourceTable_ok (data : List Byte) (mz mz2 : MZ)
    (h : MZ.readNEResourceTable data mz = .ok mz2) :
    ∃ resources,
      readTypeBlocks data
        (fieldAt data ((mz.COFFHeaderOffset
          + fieldAt data ((mz.COFFHeaderOffset + 0x24) % 4294967296) 2) % 4294967296) 2)
        (data.length + 1)
        ((mz.COFFHeaderOffset
          + fieldAt data ((mz.COFFHeaderOffset + 0x24) % 4294967296) 2) % 4294967296 + 2)
        mz.resources = .ok resources ∧
      mz2 = { mz with resources := resources } := by
  unfold MZ.readNEResourceTable at h
  simp only at h
  split at h
  · cases h
  · rename_i v1 p1 h1
    obtain ⟨-, -, hv1⟩ := binaryRead_inv _ _ _ _ _ (by decide) h1
    split at h
    · cases h
    · rename_i v2 p2 h2
      obtain ⟨-, hp2, hv2⟩ := binaryRead_inv _ _ _ _ _ (by decide) h2
      split at h
      · cases h
      · rename_i resources h3
        cases h
        subst hv1 hp2 hv2
        exact ⟨resources, h3, rfl⟩

theorem ReadMZ_ok (data : List Byte) (mz : MZ) (h : ReadMZ data = .ok mz) :
    64 ≤ data.length ∧ fieldAt data 0 2 = 0x5A4D ∧ coffOffset data < data.length ∧
      preambleFormat (preambleAt data (coffOffset data)) = .ne ∧
      mz.COFFHeaderOffset = coffOffset data ∧ mz.format = .ne ∧
      readTypeBlocks data (tableShift data) (data.length + 1) (tableStart data + 2) []
        = .ok mz.resources := by
  have hlen : 64 ≤ data.length := by
    by_contra hc
    rw [ReadMZ_short data (by omega)] at h
    cases h
  have hsig : fieldAt data 0 2 = 0x5A4D := by
    by_contra hc
    obtain ⟨mz1, hs, -, -, -, hr⟩ := readHeader_long data MZ.zero hlen
    unfold ReadMZ at h
    rw [hr, if_pos (by rw [hs]; exact hc)] at h
    cases h
  have hoff : coffOffset data < data.length := by
    by_contra hc
    rw [ReadMZ_no_preamble data hlen hsig (by unfold coffOffset at hc; omega)] at h
    cases h
  obtain ⟨mz1, pos, mz2, pos2, hr, -, hi, hfmt, hc2, hres2⟩ :=
    ReadMZ_identify data hlen hsig hoff
  have hne : preambleFormat (preambleAt data (coffOffset data)) = .ne := by
    by_contra hc
    rw [ReadMZ_not_NE data hlen hsig hoff hc] at h
    cases h
  unfold ReadMZ at h
  simp only [hr, hi] at h
  rw [if_neg (by rw [hfmt]; exact fun hx => hx hne)] at h
  split at h
  · cases h
  · rename_i mz3 h3
    cases h
    obtain ⟨resources, hrun, hmz⟩ := readNEResourceTable_ok data mz2 mz h3
    rw [hc2, hres2] at hrun
    refine ⟨hlen, hsig, hoff, hne, ?_, ?_, ?_⟩
    · rw [hmz]; exact hc2
    · rw [hmz]; exact hfmt.trans hne
    · rw [hmz]; exact hrun

/-! ## The results as Go pairs -/

theorem ReadMZResults_eq (data : List Byte) : ReadMZResults data = resultsOf (ReadMZ data) := by
  unfold ReadMZResults ReadMZ
  split
  · rfl
  · split
    · rfl
    · split
      · rfl
      · split <;> rfl

theorem fontsLoop_eq (data : List Byte) (rs : List Resource) (done : List Font) :
    fontsLoop data rs done.length (done ++ List.replicate rs.length Font.zero)
      = match decodeFonts data rs with
        | .ok fs => (some (done ++ fs), none)
        | .error e => (none, some e) := by
  induction rs generalizing done with
  | nil => simp [fontsLoop, decodeFonts]
  | cons r rest ih =>
    unfold fontsLoop decodeFonts
    cases hd : decodeFont data r with
    | error e => rfl
    | ok f =>
      simp only
      have hset : (done ++ List.replicate (r :: rest).length Font.zero).set done.length f
          = (done ++ [f]) ++ List.replicate rest.length Font.zero := by
        rw [List.length_cons, List.replicate_succ, List.set_append_right _ _ (Nat.le_refl _),
          Nat.sub_self, List.set_cons_zero, List.append_assoc]
        rfl
      have hlen : done.length + 1 = (done ++ [f]).length := by simp
      rw [hset, hlen, ih (done ++ [f])]
      cases decodeFonts data rest with
      | error e => rfl
      | ok fs => simp

theorem ReadFontsResults_eq (data : List Byte) :
    ReadFontsResults data = resultsOf (ReadFonts data) := by
  unfold ReadFontsResults ReadFonts
  cases ReadMZ data with
  | error e => rfl
  | ok mz =>
    simp only
    have := fontsLoop_eq data (mz.Resources fontType) []
    simp only [List.length_nil, List.nil_append] at this
    rw [this]
    cases decodeFonts data (mz.Resources fontType) <;> rfl

theorem ReadFonts_mem (data : List Byte) (fonts : List Font) (h : ReadFonts data = .ok fonts)
    (f : Font) (hf : f ∈ fonts) : ∃ res, decodeFont data res = .ok f := by
  obtain ⟨n, hn⟩ := List.mem_iff_getElem?.mp hf
  have hlt : n < fonts.length := (List.getElem?_eq_some.mp hn).1
  obtain ⟨mz, res, g, -, -, hg, hdec⟩ := ReadFonts_index data fonts h n hlt
  rw [hn] at hg
  cases hg
  exact ⟨res, hdec⟩

theorem addr_in_atlas (gc W H j row bits column : Nat) (hj : j < gc) (hrow : row < H)
    (hcol : bits + column * 8 < W) :
    j * H * W + row * W + bits + column * 8 < gc * W * H := by
  have h1 := glyph_room gc W H j hj
  have h2 := Nat.mul_le_mul_right W (Nat.succ_le_of_lt hrow)
  rw [Nat.succ_mul] at h2
  omega

/-! ## The claims -/

/-- C1 (the code departs from it): with `columnsPerRow = ceil(width / 8)` the
claim fails on `fixtureWide`.  Glyph 0 has the width field 0xFFFF, so byte-column
0 lies below `ceil(0xFFFF / 8) = 8192`; the stream byte at
`resourceStart + bitmapOffset = 128 + 130` is 0x81, whose bit 7 is 1, yet the
atlas byte at index 0 is 0x00: the code computes the column count in `uint16`
and gets 0.  For every glyph whose width field is at most 65528 the claim
holds: each atlas byte at `(i*PixHeight + r)*PixWidth + c*8 + k` with
`c < ceil(width / 8)`, `r < PixHeight`, `k < 8` and `c*8+k < PixWidth` is 0xFF
if bit `7-k` of the stream byte at `resourceStart + bitmapOffset +
c*PixHeight + r` is 1 and 0x00 otherwise.  The 12 by 2 glyph of
`fixtureTwoColumns`, stored column by column, is unpacked to the rows
`111100001010` and `000011111111`. -/
theorem glyph_bits_exact_below_wrap :
    (ReadFonts fixtureWide = .ok (fontsOf fixtureWide) ∧
      resourcesOf (ReadMZ fixtureWide) = some [⟨128, 0, 0x8008⟩] ∧
      readCharEntry fixtureWide ⟨128, 0, 0x8008⟩ (charLayout 0x200) 0 = .ok (0xFFFF, 130) ∧
      0 < ceilColumns 0xFFFF ∧ columnsPerRow 0xFFFF = 0 ∧
      fixtureWide[128 + 130 + 0 * 8 + 0]? = some 0x81 ∧ Nat.testBit 0x81 (7 - 0) = true ∧
      (fontsOf fixtureWide).map (fun f =>
          (glyphCount f, f.PixWidth, f.PixHeight,
            f.Face.Mask.Pix[(0 * f.PixHeight + 0) * f.PixWidth + 0 * 8 + 0]?))
        = [(2, 8, 8, some 0x00)]) ∧
    (∀ (data : List Byte) (fonts : List Font), ReadFonts data = .ok fonts →
      ∀ n, n < fonts.length →
        ∃ mz res f, ReadMZ data = .ok mz ∧ (mz.Resources fontType)[n]? = some res ∧
          fonts[n]? = some f ∧
          ∀ i, i < glyphCount f →
            ∃ width offset,
              readCharEntry data res (charLayout f.Version) i = .ok (width, offset) ∧
              (width ≤ 65528 →
                ∀ c r k, c < ceilColumns width → r < f.PixHeight → k < 8 →
                  c * 8 + k < f.PixWidth →
                  ∃ b : Byte, data[res.Start + offset + c * f.PixHeight + r]? = some b ∧
                    f.Face.Mask.Pix[(i * f.PixHeight + r) * f.PixWidth + c * 8 + k]?
                      = some (if b.val.testBit (7 - k) then 0xff else 0x00))) ∧
    (ReadFonts fixtureTwoColumns = .ok (fontsOf fixtureTwoColumns) ∧
      (fontsOf fixtureTwoColumns).map (fun f => (glyphCount f, f.PixWidth, f.PixHeight))
        = [(1, 12, 2)] ∧
      readCharEntry fixtureTwoColumns ⟨128, 0, 0x8008⟩ (charLayout 0x200) 0 = .ok (12, 122) ∧
      ceilColumns 12 = 2 ∧
      bytesAt fixtureTwoColumns (128 + 122) 4 = [0xF0, 0x0F, 0xA5, 0xFF] ∧
      (fontsOf fixtureTwoColumns).map (fun f => f.Face.Mask.Pix)
        = [inkRows [[1,1,1,1,0,0,0,0,1,0,1,0], [0,0,0,0,1,1,1,1,1,1,1,1]]]) := by
  refine ⟨by decide, fun data fonts h n hn => ?_, by decide⟩
  obtain ⟨mz, res, f, hmz, hres, hf, hdec⟩ := ReadFonts_index data fonts h n hn
  refine ⟨mz, res, f, hmz, hres, hf, fun i hi => ?_⟩
  obtain ⟨width, offset, hent, hpix⟩ :=
    Decoded_pixel data res f (decodeFont_Decoded data res f hdec) i hi
  refine ⟨width, offset, hent, fun hw c r k hc hr hk hkw => hpix c r k ?_ hr hk hkw⟩
  unfold ceilColumns at hc
  unfold columnsPerRow
  omega

/-- C2: for every stream, every resource descriptor and every font header
(any `PixWidth`, `PixHeight`, `FirstChar`, `LastChar`; the char-table entries
are whatever the stream holds), neither `ReadFonts` nor the decoding of one
font nor the glyph loop ends in the index panic; the addresses the glyph loop
writes are of the form `j*Height*Width + row*Width + x` with `j < glyphCount`,
`row < Height` and a column `x < Width`, and every such address is below
`len(Pix) = glyphCount*Width*Height`. -/
theorem atlas_writes_in_bounds (data : List Byte) (font : Resource) (f : Font) :
    ReadFonts data ≠ .error .indexOutOfRange ∧
    decodeFont data font ≠ .error .indexOutOfRange ∧
    decodeGlyphs data font f ≠ .error .indexOutOfRange ∧
    (∀ pix, decodeGlyphs data font f = .ok pix →
      pix.length = glyphCount f * f.PixWidth * f.PixHeight ∧
      ∀ a v, WrGlyphs data font (charLayout f.Version) f.PixWidth f.PixHeight
          (glyphCount f) a v →
        a < pix.length ∧
        ∃ j row x, j < glyphCount f ∧ row < f.PixHeight ∧ x < f.PixWidth ∧
          a = j * f.PixHeight * f.PixWidth + row * f.PixWidth + x) ∧
    (∀ gc W H j row bits column, j < gc → row < H → bits + column * 8 < W →
      j * H * W + row * W + bits + column * 8 < gc * W * H) := by
  refine ⟨ReadFonts_no_panic data, Post_no_panic (decodeFont_post data font),
    Post_no_panic (decodeGlyphs_post data font f), fun pix hpix => ?_, addr_in_atlas⟩
  obtain ⟨-, hp⟩ := Post_ok (decodeGlyphs_post data font f) hpix
  refine ⟨by rw [hp.1, blankPix, List.length_replicate], fun a v hw => ⟨?_, ?_⟩⟩
  · exact (List.getElem?_eq_some.mp (hp.2.2 a v hw)).1
  · obtain ⟨j, r, x, hj, hr, hx, ha, -⟩ := WrGlyphs_coords _ _ _ _ _ _ _ _ hw
    exact ⟨j, r, x, hj, hr, hx, ha⟩

/-- C3 as stated fails: the stream `fixture` (one font resource with
`firstChar = 0x20`, `lastChar = 0x22`, `pixWidth = pixHeight = 8` and three
glyph bitmaps) decodes to an atlas of width 8 and height 16 with 128 pixels,
not to three sub-images of height 8. -/
theorem fixture_atlas_has_two_subimages :
    ReadFonts fixture = .ok fixtureFonts ∧
    fixtureFonts.map (fun f => (f.FirstChar, f.LastChar, f.PixWidth, f.PixHeight))
      = [(0x20, 0x22, 8, 8)] ∧
    fixtureFonts.map (fun f => (f.Face.Mask.Rect.Max, f.Face.Mask.Pix.length))
      = [(⟨8, 16⟩, 128)] ∧
    ¬ (∀ f ∈ fixtureFonts,
        f.Face.Mask.Rect.Max.Y = (f.LastChar - f.FirstChar + 1) * f.PixHeight) := by
  decide

/-- C3, amended: for every successfully decoded font with
`FirstChar <= LastChar` the atlas holds `LastChar - FirstChar` vertically
stacked sub-images of height `PixHeight`, one for every character code `ch`
of the half-open range `[FirstChar, LastChar)`, at glyph index
`ch - FirstChar`: its rows lie inside the atlas and its pixels are the bits of
the glyph bitmap of char-table entry `ch - FirstChar`; the recorded range is
`Low = FirstChar`, `High = LastChar`.  The stream `fixture` decodes to an
atlas of width 8 and height 16 whose two sub-images are the first two source
bitmaps bit for bit. -/
theorem atlas_subimages :
    (∀ (data : List Byte) (fonts : List Font), ReadFonts data = .ok fonts →
      ∀ n, n < fonts.length →
        ∃ mz res f, ReadMZ data = .ok mz ∧ (mz.Resources fontType)[n]? = some res ∧
          fonts[n]? = some f ∧
          (f.FirstChar ≤ f.LastChar →
            glyphCount f = f.LastChar - f.FirstChar ∧
            f.Face.Ranges = [{ Low := f.FirstChar, High := f.LastChar, Offset := 0 }] ∧
            f.Face.Mask.Rect.Max = ⟨f.PixWidth, (f.LastChar - f.FirstChar) * f.PixHeight⟩ ∧
            f.Face.Mask.Pix.length = (f.LastChar - f.FirstChar) * f.PixWidth * f.PixHeight ∧
            ∀ ch, f.FirstChar ≤ ch → ch < f.LastChar →
              (ch - f.FirstChar + 1) * f.PixHeight ≤ f.Face.Mask.Rect.Max.Y ∧
              ∃ width offset,
                readCharEntry data res (charLayout f.Version) (ch - f.FirstChar)
                  = .ok (width, offset) ∧
                ∀ c r k, c < columnsPerRow width → r < f.PixHeight → k < 8 →
                  c * 8 + k < f.PixWidth →
                  ∃ b : Byte, data[res.Start + offset + c * f.PixHeight + r]? = some b ∧
                    f.Face.Mask.Pix[((ch - f.FirstChar) * f.PixHeight + r) * f.PixWidth
                        + c * 8 + k]?
                      = some (if b.val.testBit (7 - k) then 0xff else 0x00))) ∧
    (ReadFonts fixture = .ok fixtureFonts ∧
      fixtureFonts.map (fun f => (f.FirstChar, f.LastChar, f.Face.Mask.Rect.Max))
        = [(0x20, 0x22, ⟨8, 16⟩)] ∧
      fixtureFonts.map (fun f => f.Face.Mask.Pix) = [fixtureAtlas]) := by
  refine ⟨fun data fonts h n hn => ?_, by decide⟩
  obtain ⟨mz, res, f, hmz, hres, hf, hdec⟩ := ReadFonts_index data fonts h n hn
  have hd := decodeFont_Decoded data res f hdec
  refine ⟨mz, res, f, hmz, hres, hf, fun hle => ?_⟩
  have hgc := glyphCount_of_le f (Decoded_char_range data res f hd).2 hle
  have hrect := hd.2.2.2.2.2.2.2.2.2.1
  have hlen := Decoded_length data res f hd
  rw [hgc] at hrect hlen
  refine ⟨hgc, hd.2.2.2.2.2.2.2.2.2.2.1, by rw [hrect], hlen, fun ch h1 h2 => ⟨?_, ?_⟩⟩
  · rw [hrect]
    exact Nat.mul_le_mul_right _ (by omega)
  · exact Decoded_pixel data res f hd (ch - f.FirstChar) (by rw [hgc]; omega)

/-- C4: for every successfully decoded font with `FirstChar <= LastChar`, the
glyph count is `LastChar - FirstChar`, the atlas has stride and width
`PixWidth`, height `glyphCount*PixHeight`, a pixel buffer of exactly
`glyphCount*PixWidth*PixHeight` bytes, and every byte of it is 0x00 or 0xFF. -/
theorem atlas_shape (data : List Byte) (fonts : List Font) (h : ReadFonts data = .ok fonts)
    (f : Font) (hf : f ∈ fonts) (hle : f.FirstChar ≤ f.LastChar) :
    glyphCount f = f.LastChar - f.FirstChar ∧
    f.Face.Mask.Stride = f.PixWidth ∧ f.Face.Width = f.PixWidth ∧
    f.Face.Mask.Rect.Min = ⟨0, 0⟩ ∧ f.Face.Mask.Rect.Max.X = f.PixWidth ∧
    f.Face.Mask.Rect.Max.Y = (f.LastChar - f.FirstChar) * f.PixHeight ∧
    f.Face.Mask.Pix.length = (f.LastChar - f.FirstChar) * f.PixWidth * f.PixHeight ∧
    ∀ x ∈ f.Face.Mask.Pix, x = 0x00 ∨ x = 0xff := by
  obtain ⟨res, hdec⟩ := ReadFonts_mem data fonts h f hf
  have hd := decodeFont_Decoded data res f hdec
  have hgc := glyphCount_of_le f (Decoded_char_range data res f hd).2 hle
  have hrect := hd.2.2.2.2.2.2.2.2.2.1
  have hlen := Decoded_length data res f hd
  rw [hgc] at hrect hlen
  exact ⟨hgc, hd.2.2.2.2.2.2.2.2.1, hd.2.2.2.1, by rw [hrect], by rw [hrect], by rw [hrect],
    hlen, Decoded_allInk data res f hd⟩

/-- Witness of C4: the font decoded from `fixture`. -/
theorem atlas_shape_witness :
    ReadFonts fixture = .ok fixtureFonts ∧
    ∃ f, f ∈ fixtureFonts ∧ f.FirstChar ≤ f.LastChar ∧
      glyphCount f = f.LastChar - f.FirstChar ∧
      f.Face.Mask.Stride = f.PixWidth ∧ f.Face.Width = f.PixWidth ∧
      f.Face.Mask.Rect.Min = ⟨0, 0⟩ ∧ f.Face.Mask.Rect.Max.X = f.PixWidth ∧
      f.Face.Mask.Rect.Max.Y = (f.LastChar - f.FirstChar) * f.PixHeight ∧
      f.Face.Mask.Pix.length = (f.LastChar - f.FirstChar) * f.PixWidth * f.PixHeight ∧
      ∀ x ∈ f.Face.Mask.Pix, x = 0x00 ∨ x = 0xff :=
  ⟨by decide, fixtureFont, by decide, by decide,
    atlas_shape fixture fixtureFonts (by decide) fixtureFont (by decide) (by decide)⟩

/-- C5: for every stream on which `ReadFonts` succeeds, the returned list has
exactly as many fonts as the resource table has descriptors of type 0x8008,
and the `n`-th font is the one decoded from the `n`-th such descriptor in
table order: its header is unpacked from the 0x76 bytes at that descriptor's
`Start`. -/
theorem ReadFonts_count_and_order (data : List Byte) (fonts : List Font)
    (h : ReadFonts data = .ok fonts) :
    ∃ mz, ReadMZ data = .ok mz ∧
      fonts.length = (mz.resources.filter (fun r => decide (r.Type_ = 0x8008))).length ∧
      ∀ n, n < fonts.length →
        ∃ res f hdr,
          (mz.resources.filter (fun r => decide (r.Type_ = 0x8008)))[n]? = some res ∧
          fonts[n]? = some f ∧ decodeFont data res = .ok f ∧
          res.Start + 0x76 ≤ data.length ∧
          Font.Unpack (bytesAt data res.Start 0x76) = .ok hdr ∧
          f = { hdr with Copyright := stringsTrimSpace hdr.Copyright, Name := f.Name,
                         Face := f.Face } := by
  obtain ⟨mz, hmz, hall⟩ := ReadFonts_ok data fonts h
  have hres : mz.Resources fontType
      = mz.resources.filter (fun r => decide (r.Type_ = 0x8008)) := Resources_eq mz fontType
  rw [hres] at hall
  refine ⟨mz, hmz, hall.length_eq.symm, fun n hn => ?_⟩
  obtain ⟨res, f, h1, h2, h3⟩ := Forall₂_index hall n hn
  have hd := decodeFont_Decoded data res f h3
  obtain ⟨hdr, hu, hf⟩ := hd.2.1
  exact ⟨res, f, hdr, h1, h2, h3, hd.1, hu, hf⟩

/-- Witness of C5: the stream `fixture`, one font resource, one font. -/
theorem ReadFonts_count_and_order_witness :
    ReadFonts fixture = .ok fixtureFonts ∧ fixtureFonts.length = 1 ∧
    ∃ mz, ReadMZ fixture = .ok mz ∧
      fixtureFonts.length = (mz.resources.filter (fun r => decide (r.Type_ = 0x8008))).length ∧
      ∀ n, n < fixtureFonts.length →
        ∃ res f hdr,
          (mz.resources.filter (fun r => decide (r.Type_ = 0x8008)))[n]? = some res ∧
          fixtureFonts[n]? = some f ∧ decodeFont fixture res = .ok f ∧
          res.Start + 0x76 ≤ fixture.length ∧
          Font.Unpack (bytesAt fixture res.Start 0x76) = .ok hdr ∧
          f = { hdr with Copyright := stringsTrimSpace hdr.Copyright, Name := f.Name,
                         Face := f.Face } :=
  ⟨by decide, by decide, ReadFonts_count_and_order fixture fixtureFonts (by decide)⟩

/-- C6: for every container and every tag `t`, `MZ.Resources t` is the list of
the descriptors of `mz.resources` whose type is `t`, in their original order:
it is the filter on `Type = t`, every returned descriptor has type `t`, every
descriptor of type `t` is returned as often as it occurs, and the result is a
sublist of the table. -/
theorem Resources_is_filter (mz : MZ) (t : Nat) :
    mz.Resources t = mz.resources.filter (fun r => decide (r.Type_ = t)) ∧
    (∀ r ∈ mz.Resources t, r.Type_ = t) ∧
    (∀ r, r.Type_ = t → (mz.Resources t).count r = mz.resources.count r) ∧
    (mz.Resources t).Sublist mz.resources := by
  rw [Resources_eq]
  refine ⟨rfl, ?_, ?_, List.filter_sublist _⟩
  · intro r hr
    simpa using (List.mem_filter.mp hr).2
  · intro r hr
    exact List.count_filter (by simpa using hr)

/-- C7 (the code departs from it): on the stream `fixtureShifted` the resource
table has shift 4, raw start 0x1008 and raw size 0x1000, so the shifted values
65664 and 65536 do not fit the 16-bit descriptor fields; `ReadMZ` succeeds
all the same and returns the truncated `Start = 128` and `Size = 0`.  On no
stream at all does `ReadMZ` return `ErrInvalidOffset`. -/
theorem ReadMZ_truncates_shifted_offset :
    fieldAt fixtureShifted 102 2 = 4 ∧ fieldAt fixtureShifted 112 2 = 0x1008 ∧
    fieldAt fixtureShifted 114 2 = 0x1000 ∧
    0x1008 * 2 ^ 4 = 65664 ∧ 0x1000 * 2 ^ 4 = 65536 ∧
    resourcesOf (ReadMZ fixtureShifted)
      = some [{ Start := 128, Size := 0, Type_ := 0x8008 }] ∧
    (∀ data, ReadMZ data ≠ .error .ErrInvalidOffset) := by
  refine ⟨by decide, by decide, by decide, by decide, by decide, by decide, fun data h => ?_⟩
  rcases ReadMZ_error data _ h with h | h | h | ⟨f, -, h⟩ <;> cases h

/-- C8 (the code departs from it): a stream of two bytes makes `ReadMZ` and
`ReadFonts` fail with `EOF`, not with `ErrHeaderToShort`; a stream whose font
resource at offset 128 is followed by 72 bytes makes `ReadFonts` fail with
`EOF`, not with `ErrFontHeaderTooShort`.  On no stream at all is one of the
two dedicated errors returned. -/
theorem short_header_reports_EOF :
    fixtureShort.length = 2 ∧
    ReadMZ fixtureShort = .error .EOF ∧ ReadFonts fixtureShort = .error .EOF ∧
    fixtureCutFont.length = 128 + 72 ∧
    resourcesOf (ReadMZ fixtureCutFont) = some [{ Start := 128, Size := 0, Type_ := 0x8008 }] ∧
    errorOf (ReadFonts fixtureCutFont) = some .EOF ∧
    (∀ data, ReadMZ data ≠ .error .ErrHeaderToShort ∧
      ReadFonts data ≠ .error .ErrHeaderToShort ∧
      ReadFonts data ≠ .error .ErrFontHeaderTooShort) := by
  refine ⟨by decide, ReadMZ_short _ (by decide), ?_, by decide, by decide, by decide,
    fun data => ⟨fun h => ?_, fun h => ?_, fun h => ?_⟩⟩
  · unfold ReadFonts
    rw [ReadMZ_short _ (by decide)]
  · rcases ReadMZ_error data _ h with h | h | h | ⟨f, -, h⟩ <;> cases h
  · rcases ReadFonts_error data _ h with h | h | h | ⟨f, -, h⟩ <;> cases h
  · rcases ReadFonts_error data _ h with h | h | h | ⟨f, -, h⟩ <;> cases h

/-- C9: for every stream of at least 64 bytes whose first two bytes, read as a
little-endian 16-bit value, differ from 0x5A4D, `ReadMZ` and `ReadFonts` fail
with `ErrNoMZFile` (the result is the error: no container, no fonts). -/
theorem ReadMZ_rejects_bad_signature (data : List Byte) (hlen : 64 ≤ data.length)
    (hsig : fieldAt data 0 2 ≠ 0x5A4D) :
    ReadMZ data = .error .ErrNoMZFile ∧ ReadFonts data = .error .ErrNoMZFile := by
  obtain ⟨mz, hs, -, -, -, hr⟩ := readHeader_long data MZ.zero hlen
  have h : ReadMZ data = .error .ErrNoMZFile := by
    unfold ReadMZ
    rw [hr, if_pos (by rw [hs]; exact hsig)]
  refine ⟨h, ?_⟩
  unfold ReadFonts
  rw [h]

/-- Witness of C9: 64 zero bytes, signature 0x0000. -/
theorem ReadMZ_rejects_bad_signature_witness :
    64 ≤ fixtureNoSignature.length ∧ fieldAt fixtureNoSignature 0 2 ≠ 0x5A4D ∧
    ReadMZ fixtureNoSignature = .error .ErrNoMZFile ∧
    ReadFonts fixtureNoSignature = .error .ErrNoMZFile :=
  ⟨by decide, by decide, ReadMZ_rejects_bad_signature fixtureNoSignature (by decide) (by decide)⟩

/-- C10 as stated fails: `fixtureHeaderOnly` has a valid MZ header and no
byte at `COFFHeaderOffset = 64`, so its format is not NE, yet `ReadMZ` fails
with `EOF` and not with the unsupported-format error. -/
theorem ReadMZ_no_preamble_is_EOF :
    64 ≤ fixtureHeaderOnly.length ∧ fieldAt fixtureHeaderOnly 0 2 = 0x5A4D ∧
    fieldAt fixtureHeaderOnly 60 4 = 64 ∧
    specFormat fixtureHeaderOnly 64 ≠ .ne ∧
    ReadMZ fixtureHeaderOnly = .error .EOF ∧
    ReadMZ fixtureHeaderOnly ≠ .error (.unsupportedFormat (specFormat fixtureHeaderOnly 64)) := by
  have h : ReadMZ fixtureHeaderOnly = .error .EOF :=
    ReadMZ_no_preamble fixtureHeaderOnly (by decide) (by decide) (by decide)
  refine ⟨by decide, by decide, by decide, by decide, h, ?_⟩
  rw [h]
  exact fun e => Error.noConfusion (Except.error.inj e)

/-- C10, amended: for every stream with a valid MZ header, if at least one
byte is at `COFFHeaderOffset` then the format is that of the four-byte
preamble read there (the bytes there, zero-filled when fewer than four are
left): NE exactly when its first two bytes are `"NE"`, PE when they are not
and the preamble is `"PE\x00\x00"`, Other otherwise; whenever that format is
not NE, `ReadMZ` returns the unsupported-format error, whatever follows in the
stream; with four bytes at the offset this is the format of the
specification.  If no byte is at `COFFHeaderOffset`, `ReadMZ` fails with
`EOF`. -/
theorem ReadMZ_accepts_only_NE (data : List Byte) (hlen : 64 ≤ data.length)
    (hsig : fieldAt data 0 2 = 0x5A4D) :
    (fieldAt data 60 4 < data.length →
      (∃ mz pos mz2 pos2, MZ.readHeader data MZ.zero = .ok (mz, pos) ∧
        mz.COFFHeaderOffset = fieldAt data 60 4 ∧
        MZ.identifyFileFormat data mz = .ok (mz2, pos2) ∧
        mz2.format = preambleFormat (preambleAt data (fieldAt data 60 4))) ∧
      (preambleFormat (preambleAt data (fieldAt data 60 4)) ≠ .ne →
        ReadMZ data
          = .error (.unsupportedFormat (preambleFormat (preambleAt data (fieldAt data 60 4)))))) ∧
    (fieldAt data 60 4 + 4 ≤ data.length →
      preambleFormat (preambleAt data (fieldAt data 60 4)) = specFormat data (fieldAt data 60 4)) ∧
    (data.length ≤ fieldAt data 60 4 → ReadMZ data = .error .EOF) := by
  refine ⟨fun hoff => ⟨?_, ReadMZ_not_NE data hlen hsig hoff⟩,
    preambleFormat_eq_specFormat data _, ReadMZ_no_preamble data hlen hsig⟩
  obtain ⟨mz, pos, mz2, pos2, hr, hc, hi, hfmt, -, -⟩ := ReadMZ_identify data hlen hsig hoff
  exact ⟨mz, pos, mz2, pos2, hr, hc, hi, hfmt⟩

/-- Witness of C10: a valid MZ header followed by `"PE\x00\x00"`. -/
theorem ReadMZ_accepts_only_NE_witness :
    64 ≤ fixturePE.length ∧ fieldAt fixturePE 0 2 = 0x5A4D ∧
    fieldAt fixturePE 60 4 < fixturePE.length ∧
    preambleFormat (preambleAt fixturePE (fieldAt fixturePE 60 4)) = .pe ∧
    ReadMZ fixturePE
      = .error (.unsupportedFormat (preambleFormat (preambleAt fixturePE (fieldAt fixturePE 60 4)))) :=
  ⟨by decide, by decide, by decide, by decide,
    ((ReadMZ_accepts_only_NE fixturePE (by decide) (by decide)).1 (by decide)).2 (by decide)⟩

theorem fieldAt_one (data : List Byte) (off : Nat) (b0 : Byte) (h0 : data[off]? = some b0) :
    fieldAt data off 1 = b0.val := by
  have hl : off < data.length := (List.getElem?_eq_some.mp h0).1
  have e0 : data[off] = b0 := by
    rw [List.getElem?_eq_getElem hl] at h0
    exact Option.some.inj h0
  unfold fieldAt bytesAt
  rw [List.drop_eq_getElem_cons hl]
  simp [leValue, e0]

/-- C11: for every stream on which `ReadMZ` succeeds, the descriptor list is
the resource table read in on-disk order: from the position after the 16-bit
shift value, each type block with a non-zero tag `T` and count `n` contributes
the `n` descriptors of type `T` of the consecutive 12-byte entries that follow
its 8-byte head, block after block until the first zero tag; the walk depends
on no byte after that tag. -/
theorem resource_table_in_disk_order (data : List Byte) (mz : MZ)
    (h : ReadMZ data = .ok mz) :
    ∃ endPos, Table data (tableShift data) (tableStart data + 2) mz.resources endPos ∧
      endPos ≤ data.length ∧
      (∀ data2 : List Byte, data2.take endPos = data.take endPos →
        readTypeBlocks data2 (tableShift data) (data2.length + 1) (tableStart data + 2) []
          = .ok mz.resources) ∧
      (∀ tag base n, (specEntries data (tableShift data) tag base n).length = n ∧
        ∀ r ∈ specEntries data (tableShift data) tag base n, r.Type_ = tag) := by
  obtain ⟨-, -, -, -, -, -, hrun⟩ := ReadMZ_ok data mz h
  obtain ⟨rest, endPos, htab, hres⟩ := readTypeBlocks_Table _ _ _ _ _ _ hrun
  rw [List.nil_append] at hres
  rw [hres]
  refine ⟨endPos, htab, htab.bounds.2, fun data2 hagree => ?_, fun tag base n =>
    ⟨specEntries_length _ _ _ _ _, fun r hr => specEntries_type _ _ _ _ _ r hr⟩⟩
  have htab2 := Table_of_take data data2 _ _ _ _ htab hagree
  have := Table_readTypeBlocks data2 _ _ _ _ htab2 data2.length [] (by
    have := htab2.bounds
    omega)
  rw [List.nil_append] at this
  exact this

/-- Witness of C11: the stream `fixtureMixed`, three type blocks and four
entries. -/
theorem resource_table_in_disk_order_witness :
    ReadMZ fixtureMixed = .ok (mzOf fixtureMixed) ∧
    (mzOf fixtureMixed).resources
      = [⟨10, 1, 0x8003⟩, ⟨200, 2, 0x8008⟩, ⟨300, 3, 0x8008⟩, ⟨20, 4, 0x8001⟩] ∧
    ∃ endPos,
      Table fixtureMixed (tableShift fixtureMixed) (tableStart fixtureMixed + 2)
        (mzOf fixtureMixed).resources endPos ∧
      endPos ≤ fixtureMixed.length ∧
      (∀ data2 : List Byte, data2.take endPos = fixtureMixed.take endPos →
        readTypeBlocks data2 (tableShift fixtureMixed) (data2.length + 1)
          (tableStart fixtureMixed + 2) [] = .ok (mzOf fixtureMixed).resources) ∧
      (∀ tag base n, (specEntries fixtureMixed (tableShift fixtureMixed) tag base n).length = n ∧
        ∀ r ∈ specEntries fixtureMixed (tableShift fixtureMixed) tag base n, r.Type_ = tag) :=
  ⟨by decide, by decide,
    resource_table_in_disk_order fixtureMixed (mzOf fixtureMixed) (by decide)⟩

/-- C12: struct decoding reads every header field at its documented offset
and width, little-endian: in the 64-byte MZ header `Signature` is the u16 at
0x00 and `COFFHeaderOffset` the u32 at 0x3C; in the font header every field
is the value at its offset from the resource start (`Version` u16 at 0x00,
`Size` u32 at 0x02, `Copyright` the 60 bytes at 0x06, `Weight` u16 at 0x53,
`PixWidth` at 0x56, `PixHeight` at 0x58, `AvgWidth` at 0x5B, `FirstChar` at
0x5F, `LastChar` at 0x60, `BitsPointer` at 0x69, `Reserved` at 0x6D, and the
others in between), the offsets arising from unpacking the fields one after
the other. -/
theorem header_fields_at_offsets (data : List Byte) (font : Resource) :
    (64 ≤ data.length →
      ∃ mz, mz.Signature = fieldAt data 0x00 2 ∧ mz.COFFHeaderOffset = fieldAt data 0x3C 4 ∧
        MZ.readHeader data MZ.zero =
          if mz.Signature ≠ fileIdentifier then .error .ErrNoMZFile else .ok (mz, 64)) ∧
    (font.Start + 0x76 ≤ data.length →
      readFontHeader data font = .ok
        { Version := fieldAt data (font.Start + 0x00) 2,
          Size := fieldAt data (font.Start + 0x02) 4,
          Copyright := bytesAt data (font.Start + 0x06) 60,
          Type_ := fieldAt data (font.Start + 0x42) 2,
          Points := fieldAt data (font.Start + 0x44) 2,
          VertRes := fieldAt data (font.Start + 0x46) 2,
          HorizRes := fieldAt data (font.Start + 0x48) 2,
          Ascent := fieldAt data (font.Start + 0x4A) 2,
          InternalLeading := fieldAt data (font.Start + 0x4C) 2,
          ExternalLeading := fieldAt data (font.Start + 0x4E) 2,
          Italic := decide (fieldAt data (font.Start + 0x50) 1 ≠ 0),
          Underline := decide (fieldAt data (font.Start + 0x51) 1 ≠ 0),
          StrikeOut := decide (fieldAt data (font.Start + 0x52) 1 ≠ 0),
          Weight := fieldAt data (font.Start + 0x53) 2,
          CharSet := fieldAt data (font.Start + 0x55) 1,
          PixWidth := fieldAt data (font.Start + 0x56) 2,
          PixHeight := fieldAt data (font.Start + 0x58) 2,
          PitchAndFamily := fieldAt data (font.Start + 0x5A) 1,
          AvgWidth := fieldAt data (font.Start + 0x5B) 2,
          MaxWidth := fieldAt data (font.Start + 0x5D) 2,
          FirstChar := fieldAt data (font.Start + 0x5F) 1,
          LastChar := fieldAt data (font.Start + 0x60) 1,
          DefaultChar := fieldAt data (font.Start + 0x61) 1,
          BreakChar := fieldAt data (font.Start + 0x62) 1,
          WidthBytes := fieldAt data (font.Start + 0x63) 2,
          Device := fieldAt data (font.Start + 0x65) 2,
          FaceData := fieldAt data (font.Start + 0x67) 2,
          BitsPointer := fieldAt data (font.Start + 0x69) 2,
          BitsOffset := fieldAt data (font.Start + 0x6B) 2,
          Reserved := fieldAt data (font.Start + 0x6D) 1,
          Name := [], Face := Face.zero }) ∧
    (∀ off (b0 : Byte), data[off]? = some b0 → fieldAt data off 1 = b0.val) ∧
    (∀ off (b0 b1 : Byte), data[off]? = some b0 → data[off + 1]? = some b1 →
      fieldAt data off 2 = b0.val + 256 * b1.val) ∧
    (∀ off (b0 b1 b2 b3 : Byte), data[off]? = some b0 → data[off + 1]? = some b1 →
      data[off + 2]? = some b2 → data[off + 3]? = some b3 →
      fieldAt data off 4 = b0.val + 256 * b1.val + 65536 * b2.val + 16777216 * b3.val) := by
  refine ⟨fun hlen => ?_, readFontHeader_fields data font, fieldAt_one data, fieldAt_two data,
    fieldAt_four data⟩
  obtain ⟨mz, hs, hc, -, -, hr⟩ := readHeader_long data MZ.zero hlen
  exact ⟨mz, hs, hc, hr⟩

/-- C13: for every font resource that decodes, if `BitsPointer > 0` then
`Name` holds no 0x00 byte and the stream from the name position on is `Name`,
a 0x00 byte and a remainder; if `BitsPointer = 0` then `Name` is empty.  For a
header with `BitsPointer > 0` and no 0x00 byte between the name position and
the end of the stream, decoding fails with `EOF`, and so does `ReadFonts` on
a stream that has this resource among its font resources.  The name position
is the `uint16` sum of the resource start and `BitsPointer`.  On the stream
`fixtureNamed` the name `"Ab"` is read. -/
theorem font_name_until_terminator (data : List Byte) (font : Resource) :
    (∀ f, decodeFont data font = .ok f →
      (f.BitsPointer > 0 → (0 : Byte) ∉ f.Name ∧
        ∃ rest, data.drop ((font.Start + f.BitsPointer) % 65536) = f.Name ++ 0 :: rest) ∧
      (f.BitsPointer = 0 → f.Name = [])) ∧
    (∀ hdr, readFontHeader data font = .ok hdr → hdr.BitsPointer > 0 →
      (0 : Byte) ∉ data.drop ((font.Start + hdr.BitsPointer) % 65536) →
      decodeFont data font = .error .EOF ∧
      ∀ mz, ReadMZ data = .ok mz → font ∈ mz.Resources fontType →
        ∃ e, ReadFonts data = .error e) ∧
    (ReadFonts fixtureNamed = .ok (fontsOf fixtureNamed) ∧
      (fontsOf fixtureNamed).map (fun f => (f.BitsPointer, f.Name)) = [(154, [0x41, 0x62])] ∧
      bytesAt fixtureNamed (128 + 154) 3 = [0x41, 0x62, 0x00]) := by
  refine ⟨fun f h => ?_, fun hdr hh hb hz => ?_, by decide⟩
  · obtain ⟨hdr, f2, pix, hh, hn, -, hf⟩ := decodeFont_inv data font f h
    obtain ⟨-, h0, h1⟩ := readName_ok data font _ f2 hn
    have hname : f.Name = f2.Name := by rw [hf]
    have hbits : f.BitsPointer = (withTrimmedCopyright hdr).BitsPointer := by
      rw [hf]
      have hb := congrArg Font.BitsPointer (readName_ok data font _ f2 hn).1
      exact hb
    rw [hname, hbits]
    refine ⟨h1, fun hz => ?_⟩
    rw [h0 hz]
    have hl : font.Start + 0x76 ≤ data.length := by
      by_contra hc
      rw [readFontHeader_short data font (by omega)] at hh
      cases hh
    rw [readFontHeader_fields data font hl] at hh
    cases hh
    rfl
  · have hfail : decodeFont data font = .error .EOF := by
      unfold decodeFont
      simp only [hh]
      have := readName_fail data font (withTrimmedCopyright hdr) hb hz
      unfold withTrimmedCopyright at this
      simp only [this]
    exact ⟨hfail, fun mz hmz hm => ReadFonts_fail data mz font _ hmz hm hfail⟩

/-- C14: `strings.Trim(s, " ")` as the code applies it returns, for every
byte string `s`, a string that neither starts nor ends with a space and that
is `s` without a run of leading and a run of trailing spaces; the `Copyright`
of every decoded font is the trimmed 60-byte field at offset 0x06 of the
resource. -/
theorem copyright_is_trimmed :
    (∀ s : List Byte,
      (∃ n m, s = List.replicate n 0x20 ++ stringsTrimSpace s ++ List.replicate m 0x20) ∧
      (stringsTrimSpace s).head? ≠ some 0x20 ∧ (stringsTrimSpace s).getLast? ≠ some 0x20) ∧
    (∀ (data : List Byte) (font : Resource) (f : Font), decodeFont data font = .ok f →
      (bytesAt data (font.Start + 0x06) 60).length = 60 ∧
      f.Copyright = stringsTrimSpace (bytesAt data (font.Start + 0x06) 60)) := by
  refine ⟨stringsTrimSpace_spec, fun data font f h => ?_⟩
  obtain ⟨hdr, f2, pix, hh, hn, -, hf⟩ := decodeFont_inv data font f h
  have hl : font.Start + 0x76 ≤ data.length := by
    by_contra hc
    rw [readFontHeader_short data font (by omega)] at hh
    cases hh
  refine ⟨by unfold bytesAt; rw [List.length_take, List.length_drop]; omega, ?_⟩
  have hcopy : f.Copyright = (withTrimmedCopyright hdr).Copyright := by
    rw [hf]
    have hc := congrArg Font.Copyright (readName_ok data font _ f2 hn).1
    exact hc
  rw [hcopy]
  rw [readFontHeader_fields data font hl] at hh
  cases hh
  rfl

theorem fixtureWrapped_ok : ReadFonts fixtureWrapped = .ok (fontsOf fixtureWrapped) := by
  decide

/-- C15: for every stream on which `ReadFonts` succeeds, every returned font
and every glyph whose char-table width field is 0, the loop over the columns
of that glyph runs zero times, so the cursor and the buffer are left as they
are (no bitmap byte is read), and every atlas byte of the glyph's region
`[i*PixHeight*PixWidth, (i+1)*PixHeight*PixWidth)` is 0x00. -/
theorem zero_width_glyph_is_blank (data : List Byte) (fonts : List Font)
    (h : ReadFonts data = .ok fonts) (n : Nat) (hn : n < fonts.length) :
    ∃ mz res f, ReadMZ data = .ok mz ∧ (mz.Resources fontType)[n]? = some res ∧
      fonts[n]? = some f ∧
      ∀ i offset, i < glyphCount f →
        readCharEntry data res (charLayout f.Version) i = .ok (0, offset) →
        (∀ (p : Nat) (pix : List Byte),
          forLoop (columnBody data f.PixWidth f.PixHeight (i * f.PixHeight * f.PixWidth))
            (columnsPerRow 0) 0 (p, pix) = .ok (p, pix)) ∧
        (∀ pix : List Byte,
          glyphBody data res (charLayout f.Version) f.PixWidth f.PixHeight i pix = .ok pix) ∧
        ∀ a, i * f.PixHeight * f.PixWidth ≤ a → a < (i + 1) * f.PixHeight * f.PixWidth →
          f.Face.Mask.Pix[a]? = some 0x00 := by
  obtain ⟨mz, res, f, hmz, hres, hf, hdec⟩ := ReadFonts_index data fonts h n hn
  have hd := decodeFont_Decoded data res f hdec
  refine ⟨mz, res, f, hmz, hres, hf, fun i offset hi hent => ⟨fun p pix => ?_, fun pix => ?_,
    fun a hlo hhi => Decoded_zero_width data res f hd i offset hi hent a hlo hhi⟩⟩
  · rw [columnsPerRow_zero]
    rfl
  · exact glyphBody_zero_width data res _ _ _ i offset pix hent

/-- Witness of C15: the stream `fixtureWrapped`, one glyph, of width 0. -/
theorem zero_width_glyph_is_blank_witness :
    ReadFonts fixtureWrapped = .ok (fontsOf fixtureWrapped) ∧
    0 < (fontsOf fixtureWrapped).length ∧
    readCharEntry fixtureWrapped ⟨128, 0, 0x8008⟩ (charLayout 0x200) 0 = .ok (0, 0) ∧
    ∃ mz res f, ReadMZ fixtureWrapped = .ok mz ∧ (mz.Resources fontType)[0]? = some res ∧
      (fontsOf fixtureWrapped)[0]? = some f ∧
      ∀ i offset, i < glyphCount f →
        readCharEntry fixtureWrapped res (charLayout f.Version) i = .ok (0, offset) →
        (∀ (p : Nat) (pix : List Byte),
          forLoop
            (columnBody fixtureWrapped f.PixWidth f.PixHeight (i * f.PixHeight * f.PixWidth))
            (columnsPerRow 0) 0 (p, pix) = .ok (p, pix)) ∧
        (∀ pix : List Byte,
          glyphBody fixtureWrapped res (charLayout f.Version) f.PixWidth f.PixHeight i pix
            = .ok pix) ∧
        ∀ a, i * f.PixHeight * f.PixWidth ≤ a → a < (i + 1) * f.PixHeight * f.PixWidth →
          f.Face.Mask.Pix[a]? = some 0x00 :=
  ⟨fixtureWrapped_ok, by decide, by decide,
    zero_width_glyph_is_blank fixtureWrapped (fontsOf fixtureWrapped) fixtureWrapped_ok 0
      (by decide)⟩

/-- C16: the char-table layout depends on the version alone: for version
0x0200 the table starts at relative offset 0x76 and entry `i` is the u16
width and the u16 offset at `resourceStart + 0x76 + 4*i`; for every other
version it starts at 0x94 and entry `i` is the u16 width and the u32 offset
at `resourceStart + 0x94 + 6*i`. -/
theorem char_table_layout (data : List Byte) (font : Resource) (version i width offset : Nat)
    (h : readCharEntry data font (charLayout version) i = .ok (width, offset)) :
    (version = 0x200 →
      (charLayout version).Start = 0x76 ∧ (charLayout version).Size = 4 ∧
      font.Start + 0x76 + 4 * i + 4 ≤ data.length ∧
      width = fieldAt data (font.Start + 0x76 + 4 * i) 2 ∧
      offset = fieldAt data (font.Start + 0x76 + 4 * i + 2) 2) ∧
    (version ≠ 0x200 →
      (charLayout version).Start = 0x94 ∧ (charLayout version).Size = 6 ∧
      font.Start + 0x94 + 6 * i + 6 ≤ data.length ∧
      width = fieldAt data (font.Start + 0x94 + 6 * i) 2 ∧
      offset = fieldAt data (font.Start + 0x94 + 6 * i + 2) 4) := by
  constructor
  · intro hv
    have hl : charLayout version = { Start := 0x76, Size := 4, Type_ := 0 } := by
      unfold charLayout; rw [if_pos hv]
    rw [hl] at h ⊢
    simp only [readCharEntry] at h
    split at h
    · cases h
    · rename_i w p h1
      obtain ⟨-, hp1, hw⟩ := binaryRead_inv _ _ _ _ _ (by decide) h1
      simp only [if_true] at h
      split at h
      · cases h
      · rename_i o q h2
        obtain ⟨hl2, -, ho⟩ := binaryRead_inv _ _ _ _ _ (by decide) h2
        cases h
        subst hp1
        exact ⟨rfl, rfl, by omega, hw, ho⟩
  · intro hv
    have hl : charLayout version = { Start := 0x94, Size := 6, Type_ := 0 } := by
      unfold charLayout; rw [if_neg hv]
    rw [hl] at h ⊢
    simp only [readCharEntry] at h
    split at h
    · cases h
    · rename_i w p h1
      obtain ⟨-, hp1, hw⟩ := binaryRead_inv _ _ _ _ _ (by decide) h1
      simp only [show ¬ (6 = 4) by decide, if_false] at h
      split at h
      · cases h
      · rename_i o q h2
        obtain ⟨hl2, -, ho⟩ := binaryRead_inv _ _ _ _ _ (by decide) h2
        cases h
        subst hp1
        exact ⟨rfl, rfl, by omega, hw, ho⟩

/-- Witness of C16: entry 1 of the version 0x200 font of `fixture`. -/
theorem char_table_layout_witness :
    readCharEntry fixture ⟨128, 0, 0x8008⟩ (charLayout 0x200) 1 = .ok (8, 138) ∧
    ((0x200 : Nat) = 0x200 →
      (charLayout 0x200).Start = 0x76 ∧ (charLayout 0x200).Size = 4 ∧
      128 + 0x76 + 4 * 1 + 4 ≤ fixture.length ∧
      8 = fieldAt fixture (128 + 0x76 + 4 * 1) 2 ∧
      138 = fieldAt fixture (128 + 0x76 + 4 * 1 + 2) 2) :=
  ⟨by decide,
    (char_table_layout fixture ⟨128, 0, 0x8008⟩ 0x200 1 8 138 (by decide)).1⟩

/-- C17: `ReadFonts` and `ReadMZ` return no partial result.  Written with
their two Go results, whenever the error is not nil the value is nil, and the
pair is the one that stands for the outcome of the embedding.  A failure of
any stage of `ReadMZ` is the failure of `ReadMZ`, a failure of `ReadMZ` is
the failure of `ReadFonts`, and if decoding one font resource fails then
`ReadFonts` fails; on `fixtureTwo` the first font resource decodes, the
second does not, and `ReadFonts` fails with `EOF`. -/
theorem no_partial_result (data : List Byte) :
    ((ReadFontsResults data).2 ≠ none → (ReadFontsResults data).1 = none) ∧
    ((ReadMZResults data).2 ≠ none → (ReadMZResults data).1 = none) ∧
    ReadFontsResults data = resultsOf (ReadFonts data) ∧
    ReadMZResults data = resultsOf (ReadMZ data) ∧
    (∀ e, MZ.readHeader data MZ.zero = .error e → ReadMZ data = .error e) ∧
    (∀ mz pos e, MZ.readHeader data MZ.zero = .ok (mz, pos) →
      MZ.identifyFileFormat data mz = .error e → ReadMZ data = .error e) ∧
    (∀ mz pos mz2 pos2 e, MZ.readHeader data MZ.zero = .ok (mz, pos) →
      MZ.identifyFileFormat data mz = .ok (mz2, pos2) → mz2.format = .ne →
      MZ.readNEResourceTable data mz2 = .error e → ReadMZ data = .error e) ∧
    (∀ e, ReadMZ data = .error e → ReadFonts data = .error e) ∧
    (∀ mz font e, ReadMZ data = .ok mz → font ∈ mz.Resources fontType →
      decodeFont data font = .error e → ∃ e2, ReadFonts data = .error e2) ∧
    (resourcesOf (ReadMZ fixtureTwo) = some [⟨140, 0, 0x8008⟩, ⟨0x7000, 0, 0x8008⟩] ∧
      errorOf (decodeFont fixtureTwo ⟨140, 0, 0x8008⟩) = none ∧
      decodeFont fixtureTwo ⟨0x7000, 0, 0x8008⟩ = .error .EOF ∧
      ReadFonts fixtureTwo = .error .EOF ∧
      ReadFontsResults fixtureTwo = (none, some .EOF)) := by
  have hF := ReadFontsResults_eq data
  have hM := ReadMZResults_eq data
  refine ⟨?_, ?_, hF, hM, ?_, ?_, ?_, ?_, ?_, by decide⟩
  · rw [hF]
    cases ReadFonts data with
    | error e => intro _; rfl
    | ok fs => intro hne; exact absurd rfl hne
  · rw [hM]
    cases ReadMZ data with
    | error e => intro _; rfl
    | ok mz => intro hne; exact absurd rfl hne
  · intro e he
    unfold ReadMZ
    rw [he]
  · intro mz pos e hr hi
    unfold ReadMZ
    simp only [hr, hi]
  · intro mz pos mz2 pos2 e hr hi hfmt ht
    unfold ReadMZ
    simp only [hr, hi, ht]
    rw [if_neg (by rw [hfmt]; exact fun hx => hx rfl)]
  · intro e he
    unfold ReadFonts
    rw [he]
  · intro mz font e hmz hm hd
    exact ReadFonts_fail data mz font e hmz hm hd

/-- C18 (the code departs from it): `columnsPerRow` is computed in `uint16`,
so for the widths 65529 to 65535 the sum `width + 7` wraps and the result is
0, not `ceil(width / 8) = 8192`; up to 65528 it is `ceil(width / 8)`.  On
`fixtureWide`, whose first char-table entry has width 0xFFFF, no bitmap byte
of glyph 0 is unpacked: its 64 atlas bytes are 0x00, although its bitmap is
the one `fixture` decodes to ink. -/
theorem columnsPerRow_wraps :
    columnsPerRow 0xFFFF = 0 ∧ (0xFFFF + 7) / 8 = 8192 ∧
    (∀ w, w ≤ 65528 → columnsPerRow w = (w + 7) / 8 ∧ 8 * columnsPerRow w < w + 8 ∧
      w ≤ 8 * columnsPerRow w) ∧
    (∀ w, 65529 ≤ w → w ≤ 65535 → columnsPerRow w = 0 ∧ (w + 7) / 8 = 8192) ∧
    (readCharEntry fixtureWide ⟨128, 0, 0x8008⟩ (charLayout 0x200) 0 = .ok (0xFFFF, 130) ∧
      ReadFonts fixtureWide = .ok (fontsOf fixtureWide) ∧
      (fontsOf fixtureWide).map (fun f => f.Face.Mask.Pix.take 64)
        = [List.replicate 64 0x00] ∧
      (fontsOf fixture).map (fun f => f.Face.Mask.Pix.take 64) = [fixtureAtlas.take 64] ∧
      bytesAt fixtureWide (128 + 130) 8 = bytesAt fixture (128 + 130) 8) := by
  refine ⟨by decide, by decide, fun w hw => ?_, fun w h1 h2 => ?_, by decide⟩
  · unfold columnsPerRow
    omega
  · unfold columnsPerRow
    omega

/-- C19 (the code departs from it): the name position is computed in
`uint16`.  On `fixtureNameWrap` the font resource starts at 128 and
`BitsPointer` is 0xFFFF; the exact sum 65663 lies past the end of the
282-byte stream, yet `ReadFonts` succeeds and returns the name `"A"`, read
from offset `(128 + 0xFFFF) mod 65536 = 127`.  The char-table entries of the
same resource are read at exact sums. -/
theorem name_position_wraps :
    fixtureNameWrap.length = 282 ∧
    resourcesOf (ReadMZ fixtureNameWrap) = some [⟨128, 0, 0x8008⟩] ∧
    ReadFonts fixtureNameWrap = .ok (fontsOf fixtureNameWrap) ∧
    (fontsOf fixtureNameWrap).map (fun f => (f.BitsPointer, f.Name)) = [(0xFFFF, [0x41])] ∧
    128 + 0xFFFF = 65663 ∧ (128 + 0xFFFF) % 65536 = 127 ∧
    bytesAt fixtureNameWrap 127 2 = [0x41, 0x00] ∧
    ReadString fixtureNameWrap (128 + 0xFFFF) 0x00 = .error .EOF ∧
    (∀ (data : List Byte) (font : Resource) (f : Font), f.BitsPointer > 0 →
      readName data font f =
        match ReadString data ((font.Start + f.BitsPointer) % 65536) 0x00 with
        | .error e => .error e
        | .ok name => .ok { f with Name := name.dropLast }) := by
  refine ⟨by decide, by decide, by decide, by decide, by decide, by decide, by decide,
    by decide, fun data font f hb => ?_⟩
  unfold readName
  rw [if_pos hb]

/-- C20: the glyph count of every decoded font is the `uint8` difference
`(LastChar - FirstChar) mod 256`, at most 255; the atlas has
`glyphCount*PixWidth*PixHeight` bytes and height `glyphCount*PixHeight`, the
range is recorded as `Low = FirstChar`, `High = LastChar`, and when
`LastChar < FirstChar` the count is `256 + LastChar - FirstChar` and that
many glyphs are decoded: the order of the two bytes is never a reason to
fail, a decoding fails only at the end of the stream. -/
theorem glyph_count_is_uint8 (data : List Byte) (fonts : List Font)
    (h : ReadFonts data = .ok fonts) (f : Font) (hf : f ∈ fonts) :
    (glyphCount f : Int) = ((f.LastChar : Int) - (f.FirstChar : Int)) % 256 ∧
    glyphCount f ≤ 255 ∧
    f.Face.Mask.Pix.length = glyphCount f * f.PixWidth * f.PixHeight ∧
    f.Face.Mask.Rect.Max.Y = glyphCount f * f.PixHeight ∧
    f.Face.Ranges = [{ Low := f.FirstChar, High := f.LastChar, Offset := 0 }] ∧
    (f.LastChar < f.FirstChar →
      glyphCount f = 256 + f.LastChar - f.FirstChar ∧
      ∃ res, decodeFont data res = .ok f ∧
        GlyphsRead data res (charLayout f.Version) f.PixHeight
          (256 + f.LastChar - f.FirstChar)) ∧
    (∀ (font : Resource) (e : Error), decodeFont data font = .error e →
      e = .EOF ∨ e = .ErrUnexpectedEOF) := by
  obtain ⟨res, hdec⟩ := ReadFonts_mem data fonts h f hf
  have hd := decodeFont_Decoded data res f hdec
  obtain ⟨h1, h2⟩ := Decoded_char_range data res f hd
  have hrect := hd.2.2.2.2.2.2.2.2.2.1
  have hgc : glyphCount f = (f.LastChar + 256 - f.FirstChar) % 256 := rfl
  refine ⟨by rw [hgc]; omega, by rw [hgc]; omega, Decoded_length data res f hd, by rw [hrect],
    hd.2.2.2.2.2.2.2.2.2.2.1, fun hlt => ?_, fun font e he => Post_error (decodeFont_post data font) he⟩
  have hval : glyphCount f = 256 + f.LastChar - f.FirstChar := by rw [hgc]; omega
  refine ⟨hval, res, hdec, ?_⟩
  rw [← hval]
  exact hd.2.2.2.2.2.2.2.2.2.2.2.1

/-- Witness of C20: the stream `fixtureWrapped`, `FirstChar = 0xFF`,
`LastChar = 0x00`, one glyph. -/
theorem glyph_count_is_uint8_witness :
    ReadFonts fixtureWrapped = .ok (fontsOf fixtureWrapped) ∧
    ∃ f, f ∈ fontsOf fixtureWrapped ∧ f.FirstChar = 0xFF ∧ f.LastChar = 0x00 ∧
      glyphCount f = 1 ∧ f.Face.Mask.Pix.length = 6 ∧
      ((glyphCount f : Int) = ((f.LastChar : Int) - (f.FirstChar : Int)) % 256 ∧
      glyphCount f ≤ 255 ∧
      f.Face.Mask.Pix.length = glyphCount f * f.PixWidth * f.PixHeight ∧
      f.Face.Mask.Rect.Max.Y = glyphCount f * f.PixHeight ∧
      f.Face.Ranges = [{ Low := f.FirstChar, High := f.LastChar, Offset := 0 }] ∧
      (f.LastChar < f.FirstChar →
        glyphCount f = 256 + f.LastChar - f.FirstChar ∧
        ∃ res, decodeFont fixtureWrapped res = .ok f ∧
          GlyphsRead fixtureWrapped res (charLayout f.Version) f.PixHeight
            (256 + f.LastChar - f.FirstChar)) ∧
      (∀ (font : Resource) (e : Error), decodeFont fixtureWrapped font = .error e →
        e = .EOF ∨ e = .ErrUnexpectedEOF)) :=
  ⟨fixtureWrapped_ok, (fontsOf fixtureWrapped).headD Font.zero, by decide, by decide, by decide,
    by decide, by decide,
    glyph_count_is_uint8 fixtureWrapped (fontsOf fixtureWrapped) fixtureWrapped_ok
      ((fontsOf fixtureWrapped).headD Font.zero) (by decide)⟩

end Dosfont
